import Mathlib

/-!
# Verification of the ai-sessions-mcp search core and adapters

A shallow embedding of the Go sources of `ai-sessions-mcp`:

* `search/bm25.go` — tokenizer, term-frequency map, BM25 scorer;
* `search/cache.go` — index store (`IndexSession`, `NeedsReindex`, `Search`,
  `GetSnippet`, `updateStats`) over a pure model of the SQLite state;
* `adapters/claude.go`, `adapters/codex.go`, `adapters/opencode.go` and the
  Gemini adapter — pagination, rollout-file scanning, path reverse-mapping.

Go strings are modelled as `List Char` (one `Char` per rune).  Where the Go
code measures *bytes* (`len` on a string) we use the UTF-8 byte length of the
rune list; where it indexes bytes the model indexes runes, which coincides
with the source on ASCII data.  Character classification (`unicode.IsLetter`,
`unicode.IsDigit`, `strings.ToLower`) is embedded faithfully on the Basic
Latin and Latin-1 Supplement blocks (U+0000–U+00FF), the fragment exercised
here.  Floating-point arithmetic is idealised as rational arithmetic with the
natural logarithm kept abstract (a parameter `log : ℚ → ℚ`).
-/

deriving instance DecidableEq for Except

namespace AiSessions

/-! ## Character-level model of the Go string primitives -/

/-- Go `unicode.IsLetter`, restricted to U+0000–U+00FF: ASCII letters
(`A`–`Z`, `a`–`z`) plus the Latin-1 letters ª, µ, º and À–ÿ without the two
operators × and ÷. -/
def goIsLetter (c : Char) : Bool :=
  (0x41 ≤ c.toNat && c.toNat ≤ 0x5A) || (0x61 ≤ c.toNat && c.toNat ≤ 0x7A) ||
    c.toNat == 0xAA || c.toNat == 0xB5 || c.toNat == 0xBA ||
    (0xC0 ≤ c.toNat && c.toNat ≤ 0xFF && c.toNat != 0xD7 && c.toNat != 0xF7)

/-- Go `unicode.IsDigit` on U+0000–U+00FF: only the ASCII digits `0`–`9` are
in category Nd there. -/
def goIsDigit (c : Char) : Bool :=
  0x30 ≤ c.toNat && c.toNat ≤ 0x39

/-- Go `strings.ToLower`, rune-wise, on U+0000–U+00FF: ASCII `A`–`Z` and the
Latin-1 uppercase letters À–Þ (minus ×) shift up by 32. -/
def goToLowerChar (c : Char) : Char :=
  if (0x41 ≤ c.toNat && c.toNat ≤ 0x5A) ||
      (0xC0 ≤ c.toNat && c.toNat ≤ 0xDE && c.toNat != 0xD7) then
    Char.ofNat (c.toNat + 32)
  else
    c

/-- Go `strings.ToUpper`, rune-wise, on U+0000–U+00FF: ASCII `a`–`z` and the
Latin-1 lowercase letters à–þ (minus ÷) shift down by 32. -/
def goToUpperChar (c : Char) : Char :=
  if (0x61 ≤ c.toNat && c.toNat ≤ 0x7A) ||
      (0xE0 ≤ c.toNat && c.toNat ≤ 0xFE && c.toNat != 0xF7) then
    Char.ofNat (c.toNat - 32)
  else
    c

theorem charOfNat_toNat (n : Nat) (h : n < 0xD800) : (Char.ofNat n).toNat = n := by
  rw [Char.ofNat, dif_pos (Or.inl h)]
  simp [Char.ofNatAux, Char.toNat, UInt32.toNat, BitVec.toNat_ofNatLt]

/-- Number of bytes of the UTF-8 encoding of one rune. -/
def utf8CharLen (c : Char) : Nat :=
  if c.toNat < 0x80 then 1
  else if c.toNat < 0x800 then 2
  else if c.toNat < 0x10000 then 3
  else 4

/-- Byte length of a Go string (`len` on a string in Go). -/
def utf8Len (s : List Char) : Nat :=
  (s.map utf8CharLen).sum

/-! ## `search/bm25.go`: Tokenize and TermFrequency -/

/-- The rune loop of `Tokenize`: `cur` is the pending `strings.Builder`
content; a token is flushed when its byte length exceeds 1. -/
def tokenizeLoop : List Char → List Char → List (List Char)
  | [], cur => if utf8Len cur > 1 then [cur] else []
  | c :: rest, cur =>
    if goIsLetter c || goIsDigit c then
      tokenizeLoop rest (cur ++ [c])
    else
      (if utf8Len cur > 1 then [cur] else []) ++ tokenizeLoop rest []

/-- `Tokenize` from `search/bm25.go`: lowercase the input, then scan runs of
letters/digits, keeping tokens whose byte length is at least 2. -/
def Tokenize (text : List Char) : List (List Char) :=
  tokenizeLoop (text.map goToLowerChar) []

/-- `TermFrequency` from `search/bm25.go`, as the graph of the Go map
`term -> count`: one entry per distinct token. -/
def TermFrequency (tokens : List (List Char)) : List (List Char × Nat) :=
  tokens.dedup.map fun t => (t, tokens.count t)

/-! ## `search/bm25.go`: the BM25 scorer -/

/-- BM25 constant `k1 = 1.5` from `search/bm25.go`. -/
def k1 : ℚ := 3 / 2

/-- BM25 constant `b = 0.75` from `search/bm25.go`. -/
def b : ℚ := 3 / 4

/-- `BM25Scorer` from `search/bm25.go`: corpus statistics. -/
structure BM25Scorer where
  avgDocLength : ℚ
  totalDocs : ℤ
  deriving DecidableEq

/-- The body of one iteration of the `Score` loop: the contribution of one
query term (`idf * tfNorm`), given the document data.  `log` stands for
`math.Log`. -/
def termContribution (log : ℚ → ℚ) (s : BM25Scorer)
    (termFreqs docFreqs : List Char → ℕ) (docLength : ℤ) (t : List Char) : ℚ :=
  let tf : ℚ := termFreqs t
  let df : ℚ := docFreqs t
  let idf := log (((s.totalDocs : ℚ) - df + 1/2) / (df + 1/2))
  let tfNorm := (tf * (k1 + 1)) / (tf + k1 * (1 - b + b * (docLength : ℚ) / s.avgDocLength))
  idf * tfNorm

/-- The accumulator loop of `BM25Scorer.Score`: terms with `tf = 0` or
`df = 0` are skipped (`continue`), all others add `idf * tfNorm`. -/
def scoreLoop (log : ℚ → ℚ) (s : BM25Scorer)
    (termFreqs docFreqs : List Char → ℕ) (docLength : ℤ) :
    List (List Char) → ℚ → ℚ
  | [], acc => acc
  | t :: ts, acc =>
    if termFreqs t = 0 then scoreLoop log s termFreqs docFreqs docLength ts acc
    else if docFreqs t = 0 then scoreLoop log s termFreqs docFreqs docLength ts acc
    else scoreLoop log s termFreqs docFreqs docLength ts
      (acc + termContribution log s termFreqs docFreqs docLength t)

/-- `BM25Scorer.Score` from `search/bm25.go`. -/
def Score (log : ℚ → ℚ) (s : BM25Scorer) (queryTerms : List (List Char))
    (termFreqs : List Char → ℕ) (docLength : ℤ) (docFreqs : List Char → ℕ) : ℚ :=
  scoreLoop log s termFreqs docFreqs docLength queryTerms 0

/-- The sum formula of the specification: each query term contributes
`idf(t) * (tf[t]*(k1+1)) / (tf[t] + k1*(1 - b + b*L/avgL))`, and terms with
`tf[t] = 0` or `df[t] = 0` contribute nothing. -/
def scoreSpecFormula (log : ℚ → ℚ) (s : BM25Scorer) (queryTerms : List (List Char))
    (termFreqs : List Char → ℕ) (docLength : ℤ) (docFreqs : List Char → ℕ) : ℚ :=
  (queryTerms.map fun t =>
    if termFreqs t = 0 ∨ docFreqs t = 0 then 0
    else termContribution log s termFreqs docFreqs docLength t).sum

theorem scoreLoop_eq_acc_add (log : ℚ → ℚ) (s : BM25Scorer)
    (termFreqs docFreqs : List Char → ℕ) (docLength : ℤ)
    (ts : List (List Char)) (acc : ℚ) :
    scoreLoop log s termFreqs docFreqs docLength ts acc =
      acc + scoreSpecFormula log s ts termFreqs docLength docFreqs := by
  induction ts generalizing acc with
  | nil => simp [scoreLoop, scoreSpecFormula]
  | cons t ts ih =>
    by_cases htf : termFreqs t = 0
    · simp [scoreLoop, scoreSpecFormula, htf, ih]
    · by_cases hdf : docFreqs t = 0
      · simp [scoreLoop, scoreSpecFormula, htf, hdf, ih]
      · simp only [scoreLoop, htf, hdf, if_false, ih, scoreSpecFormula, List.map_cons,
          List.sum_cons, or_self, if_neg, not_false_eq_true]
        ring

/-- C1: `BM25Scorer.Score` with `k1 = 1.5`, `b = 0.75` returns exactly the sum
over the query terms `t` of `idf(t) * (tf[t]*(k1+1)) / (tf[t] + k1*(1 - b +
b*L/avgL))` where `idf(t) = ln((N - df[t] + 0.5)/(df[t] + 0.5))`, and terms
with `tf[t] = 0` or `df[t] = 0` contribute nothing (equivalently, the sum may
be restricted to the terms with `tf[t] ≠ 0` and `df[t] ≠ 0`). -/
theorem score_eq_bm25_sum (log : ℚ → ℚ) (s : BM25Scorer)
    (queryTerms : List (List Char)) (termFreqs : List Char → ℕ)
    (docLength : ℤ) (docFreqs : List Char → ℕ) :
    Score log s queryTerms termFreqs docLength docFreqs =
        scoreSpecFormula log s queryTerms termFreqs docLength docFreqs ∧
      Score log s queryTerms termFreqs docLength docFreqs =
        ((queryTerms.filter fun t => !(termFreqs t == 0 || docFreqs t == 0)).map
          (termContribution log s termFreqs docFreqs docLength)).sum := by
  constructor
  · simpa using scoreLoop_eq_acc_add log s termFreqs docFreqs docLength queryTerms 0
  · rw [Score, scoreLoop_eq_acc_add, zero_add]
    induction queryTerms with
    | nil => simp [scoreSpecFormula]
    | cons t ts ih =>
      by_cases htf : termFreqs t = 0
      · simpa [scoreSpecFormula, List.filter_cons, htf] using ih
      · by_cases hdf : docFreqs t = 0
        · simpa [scoreSpecFormula, List.filter_cons, htf, hdf] using ih
        · simp only [scoreSpecFormula, List.filter_cons, List.map_cons, List.sum_cons] at ih ⊢
          have : ¬(termFreqs t = 0 ∨ docFreqs t = 0) := by
            simp [htf, hdf]
          simp [htf, hdf, this, ih]

/-! ## C5: shape of the tokens produced by `Tokenize` -/

/-- A letter or digit in Go's sense (`unicode.IsLetter(r) || unicode.IsDigit(r)`
in the `Tokenize` loop). -/
def isAlnumGo (c : Char) : Bool :=
  goIsLetter c || goIsDigit c

/-- The claim's character class `[a-z0-9]`. -/
def isClaimTokenChar (c : Char) : Bool :=
  (0x61 ≤ c.toNat && c.toNat ≤ 0x7A) || (0x30 ≤ c.toNat && c.toNat ≤ 0x39)

theorem mem_tokenizeLoop_utf8Len (input : List Char) :
    ∀ (cur : List Char), ∀ t ∈ tokenizeLoop input cur, 2 ≤ utf8Len t := by
  induction input with
  | nil =>
    intro cur t ht
    simp only [tokenizeLoop] at ht
    split at ht
    · next h =>
      simp only [List.mem_singleton] at ht
      subst ht
      omega
    · simp at ht
  | cons a rest ih =>
    intro cur t ht
    simp only [tokenizeLoop] at ht
    split at ht
    · exact ih _ t ht
    · rw [List.mem_append] at ht
      rcases ht with ht | ht
      · split at ht
        · next h =>
          simp only [List.mem_singleton] at ht
          subst ht
          omega
        · simp at ht
      · exact ih _ t ht

theorem mem_tokenizeLoop_chars (input : List Char) :
    ∀ (cur : List Char), (∀ c ∈ cur, isAlnumGo c = true) →
      ∀ t ∈ tokenizeLoop input cur, ∀ c ∈ t,
        isAlnumGo c = true ∧ (c ∈ cur ∨ c ∈ input) := by
  induction input with
  | nil =>
    intro cur hcur t ht c hc
    simp only [tokenizeLoop] at ht
    split at ht
    · simp only [List.mem_singleton] at ht
      subst ht
      exact ⟨hcur c hc, Or.inl hc⟩
    · simp at ht
  | cons a rest ih =>
    intro cur hcur t ht c hc
    simp only [tokenizeLoop] at ht
    split at ht
    · next ha =>
      have hcur' : ∀ c ∈ cur ++ [a], isAlnumGo c = true := by
        intro c hmem
        rw [List.mem_append, List.mem_singleton] at hmem
        rcases hmem with hmem | hmem
        · exact hcur c hmem
        · subst hmem
          exact ha
      rcases ih (cur ++ [a]) hcur' t ht c hc with ⟨hal, hmem⟩
      refine ⟨hal, ?_⟩
      rw [List.mem_append, List.mem_singleton] at hmem
      rcases hmem with (hmem | hmem) | hmem
      · exact Or.inl hmem
      · exact Or.inr (by simp [hmem])
      · exact Or.inr (List.mem_cons_of_mem _ hmem)
    · rw [List.mem_append] at ht
      rcases ht with ht | ht
      · split at ht
        · simp only [List.mem_singleton] at ht
          subst ht
          exact ⟨hcur c hc, Or.inl hc⟩
        · simp at ht
      · rcases ih [] (by simp) t ht c hc with ⟨hal, hmem⟩
        simp only [List.not_mem_nil, false_or] at hmem
        exact ⟨hal, Or.inr (List.mem_cons_of_mem _ hmem)⟩

theorem goToLowerChar_toNat_lt_128 (c : Char) (h : c.toNat < 128) :
    (goToLowerChar c).toNat < 128 := by
  rw [goToLowerChar]
  split
  · next hcond =>
    simp only [Bool.or_eq_true, Bool.and_eq_true, decide_eq_true_eq, bne_iff_ne,
      ne_eq] at hcond
    have hle : c.toNat ≤ 0x5A := by omega
    rw [charOfNat_toNat _ (by omega)]
    omega
  · exact h

theorem goToLowerChar_ascii_claim (c : Char) (h : c.toNat < 128)
    (halnum : isAlnumGo (goToLowerChar c) = true) :
    isClaimTokenChar (goToLowerChar c) = true := by
  by_cases hcond : ((0x41 ≤ c.toNat && c.toNat ≤ 0x5A) ||
      (0xC0 ≤ c.toNat && c.toNat ≤ 0xDE && c.toNat != 0xD7)) = true
  · rw [goToLowerChar, if_pos hcond]
    simp only [Bool.or_eq_true, Bool.and_eq_true, decide_eq_true_eq, bne_iff_ne,
      ne_eq] at hcond
    have h1 : 0x41 ≤ c.toNat ∧ c.toNat ≤ 0x5A := by omega
    rw [isClaimTokenChar, charOfNat_toNat _ (by omega)]
    simp only [Bool.or_eq_true, Bool.and_eq_true, decide_eq_true_eq]
    omega
  · rw [goToLowerChar, if_neg hcond] at halnum ⊢
    simp only [Bool.or_eq_true, Bool.and_eq_true, decide_eq_true_eq, bne_iff_ne,
      ne_eq, not_or, not_and] at hcond
    rw [isAlnumGo, goIsLetter, goIsDigit] at halnum
    rw [isClaimTokenChar]
    simp only [Bool.or_eq_true, Bool.and_eq_true, decide_eq_true_eq, beq_iff_eq,
      bne_iff_ne, ne_eq] at halnum ⊢
    omega

theorem utf8Len_eq_length_of_ascii (t : List Char) (h : ∀ c ∈ t, c.toNat < 128) :
    utf8Len t = t.length := by
  induction t with
  | nil => simp [utf8Len]
  | cons c rest ih =>
    have hc : c.toNat < 128 := h c (by simp)
    have : utf8CharLen c = 1 := by
      rw [utf8CharLen, if_pos (by omega)]
    simp only [utf8Len, List.map_cons, List.sum_cons, this, List.length_cons]
    have := ih fun c hc => h c (List.mem_cons_of_mem _ hc)
    rw [utf8Len] at this
    omega

/-- C5 counterexample: on the input `"é."` the tokenizer emits the single
token `"é"`, whose one character is not in `[a-z0-9]` (and which has fewer
than 2 characters, though its UTF-8 byte length is 2). -/
theorem tokenize_az09_counterexample :
    Tokenize ['é', '.'] = [['é']] ∧
      ¬ ∀ t ∈ Tokenize ['é', '.'], 2 ≤ t.length ∧
        ∀ c ∈ t, isClaimTokenChar c = true := by
  decide

/-- C5 amended: every token of `Tokenize x` has UTF-8 byte length at least 2
and consists only of letter-or-digit characters of the lowercased input; when
the input is ASCII, every token additionally has at least 2 characters, all
in `[a-z0-9]`. -/
theorem tokenize_tokens_normalized (x : List Char) :
    (∀ t ∈ Tokenize x, 2 ≤ utf8Len t ∧
      ∀ c ∈ t, isAlnumGo c = true ∧ c ∈ x.map goToLowerChar) ∧
    ((∀ c ∈ x, c.toNat < 128) →
      ∀ t ∈ Tokenize x, 2 ≤ t.length ∧ ∀ c ∈ t, isClaimTokenChar c = true) := by
  have hgen : ∀ t ∈ Tokenize x, 2 ≤ utf8Len t ∧
      ∀ c ∈ t, isAlnumGo c = true ∧ c ∈ x.map goToLowerChar := by
    intro t ht
    refine ⟨mem_tokenizeLoop_utf8Len _ _ t ht, ?_⟩
    intro c hc
    have := mem_tokenizeLoop_chars (x.map goToLowerChar) [] (by simp) t ht c hc
    rcases this with ⟨hal, hmem⟩
    simp only [List.not_mem_nil, false_or] at hmem
    exact ⟨hal, hmem⟩
  refine ⟨hgen, ?_⟩
  intro hascii t ht
  rcases hgen t ht with ⟨hlen, hchars⟩
  have hlt : ∀ c ∈ t, c.toNat < 128 := by
    intro c hc
    rcases hchars c hc with ⟨-, hmem⟩
    rw [List.mem_map] at hmem
    rcases hmem with ⟨c0, hc0, rfl⟩
    exact goToLowerChar_toNat_lt_128 c0 (hascii c0 hc0)
  refine ⟨by rw [← utf8Len_eq_length_of_ascii t hlt]; exact hlen, ?_⟩
  intro c hc
  rcases hchars c hc with ⟨hal, hmem⟩
  rw [List.mem_map] at hmem
  rcases hmem with ⟨c0, hc0, rfl⟩
  exact goToLowerChar_ascii_claim c0 (hascii c0 hc0) hal

/-- Concrete instantiation of `tokenize_tokens_normalized` on the ASCII input
`"Ab1 x.Yz"`. -/
theorem tokenize_tokens_normalized_witness :
    ∀ t ∈ Tokenize ['A', 'b', '1', ' ', 'x', '.', 'Y', 'z'],
      2 ≤ t.length ∧ ∀ c ∈ t, isClaimTokenChar c = true :=
  (tokenize_tokens_normalized ['A', 'b', '1', ' ', 'x', '.', 'Y', 'z']).2 (by decide)

/-! ## `search/cache.go`: GetSnippet -/

/-- The whitespace test of the snippet boundary loops:
`content[i] == ' ' || content[i] == '\n'`. -/
def isWSChar (c : Char) : Bool :=
  c == ' ' || c == '\n'

/-- Whether position `i` of `content` holds a space or newline. -/
def wsAt (content : List Char) (i : ℕ) : Bool :=
  match content.get? i with
  | some c => isWSChar c
  | none => false

/-- `strings.Index`: position of the first occurrence of `needle`, `none` for
Go's `-1`. -/
def strIndexGo (needle : List Char) : List Char → ℕ → Option ℕ
  | [], i => if needle.isPrefixOf ([] : List Char) then some i else none
  | c :: rest, i =>
    if needle.isPrefixOf (c :: rest) then some i else strIndexGo needle rest (i + 1)

/-- `strings.Index hay needle` as an option. -/
def strIndex (hay needle : List Char) : Option ℕ :=
  strIndexGo needle hay 0

/-- The term-selection loop of `GetSnippet`: earliest match position wins;
`firstPos` starts at `len(content)` and `matchedTerm` at `""`. -/
def findFirstTerm (contentLower : List Char) (contentLen : ℕ)
    (queryTerms : List (List Char)) : ℕ × List Char :=
  queryTerms.foldl
    (fun acc term =>
      match strIndex contentLower term with
      | some pos => if pos < acc.1 then (pos, term) else acc
      | none => acc)
    (contentLen, [])

/-- Go slice `content[s:e]`. -/
def goSlice (s e : ℕ) (l : List Char) : List Char :=
  (l.drop s).take (e - s)

/-- The literal `"..."`. -/
def dots : List Char :=
  ['.', '.', '.']

/-- The backward boundary loop of `GetSnippet`:
`for i := start; i > 0 && i > start-50; i--`, setting `start = i+1` at the
first space or newline.  The second argument is the loop variable `i`. -/
def scanBackGo (content : List Char) (start : ℕ) : ℕ → ℕ
  | 0 => start
  | i + 1 =>
    if start < i + 1 + 50 then
      (if wsAt content (i + 1) then i + 2 else scanBackGo content start i)
    else start

/-- The forward boundary loop of `GetSnippet`:
`for i := end; i < len(content) && i < end+50; i++`, setting `end = i` at the
first space or newline.  `fuel` only bounds the recursion; started at 50 with
`i = endPos` it never runs out before the `i < end+50` test fails. -/
def scanFwdGo (content : List Char) (endPos : ℕ) : ℕ → ℕ → ℕ
  | _, 0 => endPos
  | i, fuel + 1 =>
    if i < content.length ∧ i < endPos + 50 then
      (if wsAt content i then i else scanFwdGo content endPos (i + 1) fuel)
    else endPos

/-- `GetSnippet` from `search/cache.go`. -/
def GetSnippet (content : List Char) (queryTerms : List (List Char))
    (maxLength0 : ℕ) : List Char :=
  let maxLength := if maxLength0 = 0 then 300 else maxLength0
  let contentLower := content.map goToLowerChar
  let fp := findFirstTerm contentLower content.length queryTerms
  if fp.1 = content.length then
    if content.length ≤ maxLength then content
    else content.take maxLength ++ dots
  else
    let half := maxLength / 2
    let start0 := fp.1 - half
    let end0 := min (fp.1 + fp.2.length + half) content.length
    let start1 := if 0 < start0 then scanBackGo content start0 start0 else start0
    let end1 := if end0 < content.length then scanFwdGo content end0 end0 50 else end0
    let snippet := goSlice start1 end1 content
    let withPre := if 0 < start1 then dots ++ snippet else snippet
    if end1 < content.length then withPre ++ dots else withPre

/-- The start adjustment as claim C4 words it: push `start` *forward* to the
next whitespace within 50 bytes (one past the first space or newline at
position `≥ start`). -/
def claimScanStart (content : List Char) (start : ℕ) : ℕ → ℕ → ℕ
  | _, 0 => start
  | i, fuel + 1 =>
    if i < content.length ∧ i < start + 50 then
      (if wsAt content i then i + 1 else claimScanStart content start (i + 1) fuel)
    else start

/-- The end adjustment as claim C4 words it: pull `end` *back* to the previous
whitespace within 50 bytes. -/
def claimScanEnd (content : List Char) (endPos : ℕ) : ℕ → ℕ
  | 0 => endPos
  | i + 1 =>
    if endPos < i + 1 + 50 then
      (if wsAt content (i + 1) then i + 1 else claimScanEnd content endPos i)
    else endPos

/-- The snippet function exactly as claim C4 describes it: identical to
`GetSnippet` except that `start` is pushed forward and `end` pulled back. -/
def claimSnippet (content : List Char) (queryTerms : List (List Char))
    (maxLength0 : ℕ) : List Char :=
  let maxLength := if maxLength0 = 0 then 300 else maxLength0
  let contentLower := content.map goToLowerChar
  let fp := findFirstTerm contentLower content.length queryTerms
  if fp.1 = content.length then
    if content.length ≤ maxLength then content
    else content.take maxLength ++ dots
  else
    let half := maxLength / 2
    let start0 := fp.1 - half
    let end0 := min (fp.1 + fp.2.length + half) content.length
    let start1 := if 0 < start0 then claimScanStart content start0 start0 50 else start0
    let end1 := if end0 < content.length then claimScanEnd content end0 end0 else end0
    let snippet := goSlice start1 end1 content
    let withPre := if 0 < start1 then dots ++ snippet else snippet
    if end1 < content.length then withPre ++ dots else withPre

/-- C4 counterexample: on `"aa bb cc"` with term `"cc"` and `maxLength = 4`
the code moves `start` *backward* (to just after the previous whitespace),
yielding `"...bb cc"`, while the claim's forward push would yield `"...cc"`. -/
theorem snippet_direction_counterexample :
    GetSnippet ['a', 'a', ' ', 'b', 'b', ' ', 'c', 'c'] [['c', 'c']] 4 =
        ['.', '.', '.', 'b', 'b', ' ', 'c', 'c'] ∧
      claimSnippet ['a', 'a', ' ', 'b', 'b', ' ', 'c', 'c'] [['c', 'c']] 4 =
        ['.', '.', '.', 'c', 'c'] ∧
      GetSnippet ['a', 'a', ' ', 'b', 'b', ' ', 'c', 'c'] [['c', 'c']] 4 ≠
        claimSnippet ['a', 'a', ' ', 'b', 'b', ' ', 'c', 'c'] [['c', 'c']] 4 := by
  decide

/-- Declarative form of the start adjustment the code performs: `start` moves
to one past the *greatest* whitespace position `i ≤ start` with `i > 0` and
`i > start - 50`, and is unchanged when there is none. -/
def amendedStart (content : List Char) (start : ℕ) : ℕ :=
  match (List.range (start + 1)).reverse.find?
      (fun i => decide (0 < i) && decide (start < i + 50) && wsAt content i) with
  | some i => i + 1
  | none => start

/-- Declarative form of the end adjustment the code performs: `end` moves to
the *least* whitespace position `i ≥ end` with `i < len` and `i < end + 50`,
and is unchanged when there is none. -/
def amendedEnd (content : List Char) (endPos : ℕ) : ℕ :=
  match (List.range' endPos (min content.length (endPos + 50) - endPos)).find?
      (wsAt content) with
  | some i => i
  | none => endPos

theorem scanBackGo_eq_amendedStart (content : List Char) (start : ℕ) :
    ∀ j, scanBackGo content start j =
      match (List.range (j + 1)).reverse.find?
          (fun i => decide (0 < i) && decide (start < i + 50) && wsAt content i) with
      | some i => i + 1
      | none => start := by
  intro j
  induction j with
  | zero => simp [scanBackGo, List.range_succ]
  | succ j ih =>
    have hrange : (List.range (j + 1 + 1)).reverse =
        (j + 1) :: (List.range (j + 1)).reverse := by
      rw [List.range_succ, List.reverse_append]
      simp
    rw [scanBackGo, hrange, List.find?_cons]
    by_cases hbound : start < j + 1 + 50
    · by_cases hws : wsAt content (j + 1) = true
      · simp [hbound, hws]
      · simp [hbound, hws, ih]
    · have hnone : (List.range (j + 1)).reverse.find?
          (fun i => decide (0 < i) && decide (start < i + 50) && wsAt content i) = none := by
        rw [List.find?_eq_none]
        intro i hi
        rw [List.mem_reverse, List.mem_range] at hi
        simp only [Bool.and_eq_true, decide_eq_true_eq, not_and]
        intro _ hlt
        omega
      have hp : (decide (0 < j + 1) && decide (start < j + 1 + 50) &&
          wsAt content (j + 1)) = false := by
        simp only [Bool.and_eq_true, decide_eq_true_eq, Bool.and_eq_false_iff]
        left
        simp [hbound]
      rw [if_neg hbound, hp, hnone]

theorem scanFwdGo_eq_amendedEnd (content : List Char) (endPos : ℕ) :
    ∀ (fuel i : ℕ), endPos + 50 ≤ i + fuel →
      scanFwdGo content endPos i fuel =
        match (List.range' i (min content.length (endPos + 50) - i)).find?
            (wsAt content) with
        | some j => j
        | none => endPos := by
  intro fuel
  induction fuel with
  | zero =>
    intro i h
    have : min content.length (endPos + 50) - i = 0 := by omega
    simp [scanFwdGo, this]
  | succ fuel ih =>
    intro i h
    rw [scanFwdGo]
    by_cases hcond : i < content.length ∧ i < endPos + 50
    · have hcount : min content.length (endPos + 50) - i =
          (min content.length (endPos + 50) - (i + 1)) + 1 := by omega
      rw [if_pos hcond, hcount, List.range'_succ, List.find?_cons]
      by_cases hws : wsAt content i = true
      · simp [hws]
      · simp only [hws, if_neg, Bool.false_eq_true, not_false_eq_true]
        exact ih (i + 1) (by omega)
    · have hcount : min content.length (endPos + 50) - i = 0 := by omega
      rw [if_neg hcond, hcount]
      simp

/-- The snippet function with the two boundary adjustments stated
declaratively in the corrected directions (start pulled back to just after
the previous whitespace, end pushed forward to the next whitespace, each
within 50 bytes); everything else is as in `GetSnippet`. -/
def amendedSnippet (content : List Char) (queryTerms : List (List Char))
    (maxLength0 : ℕ) : List Char :=
  let maxLength := if maxLength0 = 0 then 300 else maxLength0
  let contentLower := content.map goToLowerChar
  let fp := findFirstTerm contentLower content.length queryTerms
  if fp.1 = content.length then
    if content.length ≤ maxLength then content
    else content.take maxLength ++ dots
  else
    let half := maxLength / 2
    let start0 := fp.1 - half
    let end0 := min (fp.1 + fp.2.length + half) content.length
    let start1 := if 0 < start0 then amendedStart content start0 else start0
    let end1 := if end0 < content.length then amendedEnd content end0 else end0
    let snippet := goSlice start1 end1 content
    let withPre := if 0 < start1 then dots ++ snippet else snippet
    if end1 < content.length then withPre ++ dots else withPre

/-- C4 amended: `GetSnippet` centres a window of `maxLength/2` on the first
(case-insensitive) match, clamps it, *pulls `start` back* to one past the
nearest whitespace among the 50 positions before it and *pushes `end`
forward* to the nearest whitespace among the 50 positions after it, adds
leading/trailing ellipses when truncated, returns the first `maxLength`
bytes (plus ellipsis) when no term occurs, and treats `maxLength = 0`
as 300. -/
theorem getSnippet_eq_amendedSnippet (content : List Char)
    (queryTerms : List (List Char)) (maxLength0 : ℕ) :
    GetSnippet content queryTerms maxLength0 =
      amendedSnippet content queryTerms maxLength0 := by
  have hback : ∀ s, scanBackGo content s s = amendedStart content s := by
    intro s
    rw [amendedStart, scanBackGo_eq_amendedStart]
  have hfwd : ∀ e, scanFwdGo content e e 50 = amendedEnd content e := by
    intro e
    rw [amendedEnd, scanFwdGo_eq_amendedEnd content e 50 e (by omega)]
  simp only [GetSnippet, amendedSnippet, hback, hfwd]

/-! ## `search/cache.go`: the index store state -/

/-- Errors surfaced by the cache model: a failed `os.Stat`, or a query with
no valid search terms. -/
inductive CacheErr where
  | ioError
  | invalidQuery
  deriving DecidableEq

/-- `adapters.Session` as consumed by `IndexSession` (timestamps as epoch
seconds). -/
structure Sess where
  id : List Char
  source : List Char
  projectPath : List Char
  filePath : List Char
  firstMessage : List Char
  summary : List Char
  timestamp : ℤ
  deriving DecidableEq

/-- One row of the `sessions` table of `schema.sql`. -/
structure SessionRow where
  id : List Char
  source : List Char
  projectPath : List Char
  filePath : List Char
  firstMessage : List Char
  summary : List Char
  timestamp : ℤ
  lastIndexed : ℤ
  fileMtime : ℤ
  docLength : ℕ
  content : List Char
  deriving DecidableEq

/-- One row of the `term_index` table. -/
structure TermRow where
  term : List Char
  sessionId : List Char
  freq : ℕ
  deriving DecidableEq

/-- The persistent state of the cache database: the two tables plus the
`search_stats` singletons. -/
structure DBState where
  sessions : List SessionRow
  termIndex : List TermRow
  statsTotalDocs : ℤ
  statsAvgDocLength : ℚ
  deriving DecidableEq

/-- The file-system model: `os.Stat(path).ModTime().Unix()`, failing when the
path is absent. -/
def statFs (fs : List (List Char × ℤ)) (path : List Char) : Option ℤ :=
  (fs.find? fun e => decide (e.1 = path)).map (·.2)

/-- The `sessions` row written by `IndexSession`. -/
def sessionRowOf (now : ℤ) (s : Sess) (mtime : ℤ) (docLength : ℕ)
    (content : List Char) : SessionRow :=
  ⟨s.id, s.source, s.projectPath, s.filePath, s.firstMessage, s.summary,
    s.timestamp, now, mtime, docLength, content⟩

/-- `Cache.IndexSession` from `search/cache.go`, as a transaction on the pure
state: tokenize the content, stat the file (failure aborts leaving the state
unchanged), replace the session row (`INSERT OR REPLACE`), delete and
re-insert the session's `term_index` rows, and recompute `search_stats` as
`updateStats` does, all in one atomic step. -/
def indexSession (now : ℤ) (fs : List (List Char × ℤ)) (db : DBState)
    (s : Sess) (content : List Char) : Except CacheErr DBState :=
  let tokens := Tokenize content
  let termFreqs := TermFrequency tokens
  let docLength := tokens.length
  match statFs fs s.filePath with
  | none => .error .ioError
  | some mtime =>
    let sessions := (db.sessions.filter fun r => decide (r.id ≠ s.id)) ++
      [sessionRowOf now s mtime docLength content]
    let termIndex := (db.termIndex.filter fun r => decide (r.sessionId ≠ s.id)) ++
      (termFreqs.map fun p => ⟨p.1, s.id, p.2⟩)
    let totalDocs : ℤ := sessions.length
    let totalLength : ℤ := (sessions.map fun r => (r.docLength : ℤ)).sum
    let avg : ℚ := if totalDocs > 0 then (totalLength : ℚ) / (totalDocs : ℚ) else 0
    .ok ⟨sessions, termIndex, totalDocs, avg⟩

/-- `Cache.NeedsReindex` from `search/cache.go`: `true` when the id is not in
`sessions`; otherwise stat the artifact (failure is an error) and compare
modification times strictly. -/
def needsReindex (fs : List (List Char × ℤ)) (db : DBState)
    (sessionId filePath : List Char) : Except CacheErr Bool :=
  match db.sessions.find? fun r => decide (r.id = sessionId) with
  | none => .ok true
  | some row =>
    match statFs fs filePath with
    | none => .error .ioError
    | some m => .ok (decide (m > row.fileMtime))

theorem find?_append_none {α : Type} (p : α → Bool) (l1 l2 : List α)
    (h : ∀ x ∈ l1, p x = false) : (l1 ++ l2).find? p = l2.find? p := by
  induction l1 with
  | nil => simp
  | cons a l ih =>
    have ha := h a (by simp)
    simp only [List.cons_append, List.find?_cons, ha]
    exact ih fun x hx => h x (List.mem_cons_of_mem _ hx)

theorem indexSession_ok_elim (now : ℤ) (fs : List (List Char × ℤ)) (db : DBState)
    (s : Sess) (content : List Char) (db2 : DBState)
    (h : indexSession now fs db s content = .ok db2) :
    ∃ mtime, statFs fs s.filePath = some mtime ∧
      db2.sessions = (db.sessions.filter fun r => decide (r.id ≠ s.id)) ++
        [sessionRowOf now s mtime (Tokenize content).length content] ∧
      db2.termIndex = (db.termIndex.filter fun r => decide (r.sessionId ≠ s.id)) ++
        ((TermFrequency (Tokenize content)).map fun p => (⟨p.1, s.id, p.2⟩ : TermRow)) ∧
      db2.statsTotalDocs = (db2.sessions.length : ℤ) ∧
      db2.statsAvgDocLength =
        (((db2.sessions.map fun r => (r.docLength : ℤ)).sum : ℤ) : ℚ) /
          ((db2.sessions.length : ℕ) : ℚ) := by
  simp only [indexSession] at h
  cases hstat : statFs fs s.filePath with
  | none =>
    rw [hstat] at h
    exact absurd h (by simp)
  | some mtime =>
    rw [hstat] at h
    simp only [Except.ok.injEq] at h
    subst h
    refine ⟨mtime, rfl, rfl, rfl, rfl, ?_⟩
    have hlen : ((((db.sessions.filter fun r => decide (r.id ≠ s.id)) ++
        [sessionRowOf now s mtime (Tokenize content).length content]).length : ℤ)) > 0 := by
      have h0 : 0 < ((db.sessions.filter fun r => decide (r.id ≠ s.id)) ++
          [sessionRowOf now s mtime (Tokenize content).length content]).length := by
        simp
      exact_mod_cast h0
    show (if _ > (0:ℤ) then _ else (0:ℚ)) = _
    rw [if_pos hlen]
    push_cast
    ring

/-- C3: `NeedsReindex(id, file_path)` is `true` when the id is absent from
`sessions`; otherwise it is `true` iff the artifact's modification time is
strictly greater than the stored `file_mtime`, and it fails when the artifact
cannot be stat'd.  After a successful `IndexSession(s, content)` (with the
file system unchanged) `NeedsReindex(s.id, s.file_path)` is `false`, and
after the file's mtime strictly increases it is `true`. -/
theorem needsReindex_contract (fs fs2 : List (List Char × ℤ)) (db db2 : DBState)
    (s : Sess) (content sessionId filePath : List Char) (row : SessionRow)
    (m m2 now : ℤ) :
    ((db.sessions.find? fun r => decide (r.id = sessionId)) = none →
      needsReindex fs db sessionId filePath = .ok true) ∧
    ((db.sessions.find? fun r => decide (r.id = sessionId)) = some row →
      statFs fs filePath = some m →
      needsReindex fs db sessionId filePath = .ok (decide (m > row.fileMtime))) ∧
    ((db.sessions.find? fun r => decide (r.id = sessionId)) = some row →
      statFs fs filePath = none →
      needsReindex fs db sessionId filePath = .error .ioError) ∧
    (indexSession now fs db s content = .ok db2 →
      needsReindex fs db2 s.id s.filePath = .ok false) ∧
    (indexSession now fs db s content = .ok db2 →
      statFs fs2 s.filePath = some m2 →
      statFs fs s.filePath = some m → m < m2 →
      needsReindex fs2 db2 s.id s.filePath = .ok true) := by
  have hfind : ∀ (mtime : ℤ),
      ((db.sessions.filter fun r => decide (r.id ≠ s.id)) ++
        [sessionRowOf now s mtime (Tokenize content).length content]).find?
          (fun r => decide (r.id = s.id)) =
        some (sessionRowOf now s mtime (Tokenize content).length content) := by
    intro mtime
    rw [find?_append_none]
    · simp [List.find?_cons, sessionRowOf]
    · intro x hx
      rw [List.mem_filter] at hx
      simpa using hx.2
  refine ⟨?_, ?_, ?_, ?_, ?_⟩
  · intro h
    simp [needsReindex, h]
  · intro h1 h2
    simp [needsReindex, h1, h2]
  · intro h1 h2
    simp [needsReindex, h1, h2]
  · intro hok
    obtain ⟨mtime, hstat, hsess, -, -, -⟩ :=
      indexSession_ok_elim now fs db s content db2 hok
    rw [needsReindex, hsess, hfind mtime, hstat]
    simp [sessionRowOf]
  · intro hok h2 h1 hm
    obtain ⟨mtime, hstat, hsess, -, -, -⟩ :=
      indexSession_ok_elim now fs db s content db2 hok
    rw [hstat] at h1
    injection h1 with h1
    rw [needsReindex, hsess, hfind mtime, h2]
    simp only [sessionRowOf, gt_iff_lt, Except.ok.injEq, decide_eq_true_eq]
    omega

/-- Concrete run of `needsReindex_contract`: index a session at mtime 5, then
`NeedsReindex` is `false` at mtime 5 and `true` at mtime 7. -/
def fsEx : List (List Char × ℤ) := [(['f'], 5)]

/-- The file system after touching the artifact: mtime 7 > 5. -/
def fsEx2 : List (List Char × ℤ) := [(['f'], 7)]

/-- A concrete session for the witnesses. -/
def sessEx : Sess := ⟨['s'], ['c'], ['p'], ['f'], [], [], 0⟩

/-- The empty initial cache state. -/
def dbEx0 : DBState := ⟨[], [], 0, 0⟩

/-- Concrete content `"go go"`. -/
def contentEx : List Char := ['g', 'o', ' ', 'g', 'o']

/-- The cache state produced by indexing `sessEx` with `contentEx` at time 9
with file mtime 5. -/
def dbEx2 : DBState :=
  ⟨[⟨['s'], ['c'], ['p'], ['f'], [], [], 0, 9, 5, 2, ['g', 'o', ' ', 'g', 'o']⟩],
    [⟨['g', 'o'], ['s'], 2⟩], 1, 2⟩

theorem indexSessionEx_ok :
    indexSession 9 fsEx dbEx0 sessEx contentEx = .ok dbEx2 := by
  have hstat : statFs fsEx ['f'] = some 5 := by decide
  have htok : Tokenize ['g', 'o', ' ', 'g', 'o'] = [['g', 'o'], ['g', 'o']] := by decide
  have htf : TermFrequency [['g', 'o'], ['g', 'o']] = [(['g', 'o'], 2)] := by decide
  simp only [indexSession, dbEx0, sessEx, contentEx, sessionRowOf]
  norm_num [dbEx2, hstat, htok, htf]

theorem needsReindex_contract_witness :
    needsReindex fsEx dbEx2 sessEx.id sessEx.filePath = .ok false ∧
      needsReindex fsEx2 dbEx2 sessEx.id sessEx.filePath = .ok true := by
  have h := needsReindex_contract fsEx fsEx2 dbEx0 dbEx2 sessEx contentEx
    sessEx.id sessEx.filePath ⟨[], [], [], [], [], [], 0, 0, 0, 0, []⟩ 5 7 9
  exact ⟨h.2.2.2.1 indexSessionEx_ok,
    h.2.2.2.2 indexSessionEx_ok (by decide) (by decide) (by decide)⟩

/-- C6: a successful `IndexSession(session, content)` replaces any session
row with the same id, replaces that session's `term_index` rows by exactly
`TermFrequency(Tokenize(content))` while leaving every other session's rows
unchanged, and recomputes `total_docs = count(sessions)` and
`avg_doc_length = Σ doc_length / total_docs` in the same atomic step; a
failed stat aborts with an error and (the transaction being modelled as a
single state-valued step) leaves the prior state intact. -/
theorem indexSession_atomic (now : ℤ) (fs : List (List Char × ℤ))
    (db db2 : DBState) (s : Sess) (content : List Char) (mtime : ℤ) :
    (statFs fs s.filePath = none →
      indexSession now fs db s content = .error .ioError) ∧
    (statFs fs s.filePath = some mtime →
      indexSession now fs db s content = .ok db2 →
      db2.sessions = (db.sessions.filter fun r => decide (r.id ≠ s.id)) ++
          [sessionRowOf now s mtime (Tokenize content).length content] ∧
        (db2.termIndex.filter fun r => decide (r.sessionId ≠ s.id)) =
          (db.termIndex.filter fun r => decide (r.sessionId ≠ s.id)) ∧
        (∀ t f, ((⟨t, s.id, f⟩ : TermRow) ∈ db2.termIndex ↔
          (t, f) ∈ TermFrequency (Tokenize content))) ∧
        db2.statsTotalDocs = (db2.sessions.length : ℤ) ∧
        db2.statsAvgDocLength =
          (((db2.sessions.map fun r => (r.docLength : ℤ)).sum : ℤ) : ℚ) /
            ((db2.sessions.length : ℕ) : ℚ)) := by
  constructor
  · intro h
    simp [indexSession, h]
  · intro hstat hok
    obtain ⟨mtime2, hstat2, hsess, hterm, htd, havg⟩ :=
      indexSession_ok_elim now fs db s content db2 hok
    rw [hstat] at hstat2
    injection hstat2 with hstat2
    subst hstat2
    refine ⟨hsess, ?_, ?_, htd, havg⟩
    · rw [hterm, List.filter_append]
      have h2 : ((TermFrequency (Tokenize content)).map
          fun p => (⟨p.1, s.id, p.2⟩ : TermRow)).filter
            (fun r => decide (r.sessionId ≠ s.id)) = [] := by
        rw [List.filter_eq_nil_iff]
        intro r hr
        rw [List.mem_map] at hr
        obtain ⟨p, -, rfl⟩ := hr
        simp
      rw [h2, List.append_nil, List.filter_filter]
      simp
    · intro t f
      rw [hterm, List.mem_append]
      constructor
      · intro h
        rcases h with h | h
        · rw [List.mem_filter] at h
          simp at h
        · rw [List.mem_map] at h
          obtain ⟨p, hp, heq⟩ := h
          rcases p with ⟨pt, pf⟩
          simp only [TermRow.mk.injEq] at heq
          rw [← heq.1, ← heq.2.2]
          exact hp
      · intro h
        right
        rw [List.mem_map]
        exact ⟨(t, f), h, rfl⟩

theorem indexSession_atomic_witness :
    dbEx2.statsTotalDocs = (dbEx2.sessions.length : ℤ) ∧
      (((⟨['g', 'o'], ['s'], 2⟩ : TermRow) ∈ dbEx2.termIndex) ↔
        ((['g', 'o'], 2) ∈ TermFrequency (Tokenize contentEx))) := by
  have h := (indexSession_atomic 9 fsEx dbEx0 dbEx2 sessEx contentEx 5).2
    (by decide) indexSessionEx_ok
  exact ⟨h.2.2.2.1, h.2.2.1 ['g', 'o'] 2⟩

/-! ## `search/cache.go`: the in-place descending sort of `Search`

`Search` sorts its results with a double loop
(`if results[j].Score > results[i].Score { swap }`); `swapPass` is one run of
the inner loop threading the current `results[i]` through, and
`exchangeSortGo` the outer loop (with a structural fuel equal to the list
length). -/

/-- One inner pass of the sort: `a` is the element currently at position `i`;
whenever a later element has a strictly larger key the two are swapped. -/
def swapPass {α : Type} (key : α → ℚ) : α → List α → α × List α
  | a, [] => (a, [])
  | a, x :: xs =>
    if key a < key x then
      let p := swapPass key x xs
      (p.1, a :: p.2)
    else
      let p := swapPass key a xs
      (p.1, x :: p.2)

theorem swapPass_length {α : Type} (key : α → ℚ) (a : α) (l : List α) :
    (swapPass key a l).2.length = l.length := by
  induction l generalizing a with
  | nil => simp [swapPass]
  | cons x xs ih =>
    by_cases h : key a < key x
    · simp [swapPass, h, ih]
    · simp [swapPass, h, ih]

/-- The outer loop of the sort. -/
def exchangeSortGo {α : Type} (key : α → ℚ) : ℕ → List α → List α
  | 0, _ => []
  | _, [] => []
  | fuel + 1, a :: xs =>
    let p := swapPass key a xs
    p.1 :: exchangeSortGo key fuel p.2

/-- The in-place descending sort of `Search` (`Score` as the key). -/
def exchangeSort {α : Type} (key : α → ℚ) (l : List α) : List α :=
  exchangeSortGo key l.length l

theorem swapPass_key_fst_ge {α : Type} (key : α → ℚ) (a : α) (l : List α) :
    key a ≤ key (swapPass key a l).1 := by
  induction l generalizing a with
  | nil => simp [swapPass]
  | cons x xs ih =>
    by_cases h : key a < key x
    · simp only [swapPass, h, if_pos]
      exact le_trans (le_of_lt h) (ih x)
    · simp only [swapPass, h, if_neg, not_false_eq_true, ite_false]
      exact ih a

theorem swapPass_snd_key_le {α : Type} (key : α → ℚ) (a : α) (l : List α) :
    ∀ y ∈ (swapPass key a l).2, key y ≤ key (swapPass key a l).1 := by
  induction l generalizing a with
  | nil => simp [swapPass]
  | cons x xs ih =>
    by_cases h : key a < key x
    · intro y hy
      simp only [swapPass, h, if_pos] at hy ⊢
      rcases List.mem_cons.mp hy with rfl | hy
      · exact le_trans (le_of_lt h) (swapPass_key_fst_ge key x xs)
      · exact ih x y hy
    · intro y hy
      simp only [swapPass, h, if_neg, not_false_eq_true, ite_false] at hy ⊢
      rcases List.mem_cons.mp hy with rfl | hy
      · exact le_trans (not_lt.mp h) (swapPass_key_fst_ge key a xs)
      · exact ih a y hy

theorem swapPass_perm {α : Type} (key : α → ℚ) (a : α) (l : List α) :
    ((swapPass key a l).1 :: (swapPass key a l).2).Perm (a :: l) := by
  induction l generalizing a with
  | nil => simp [swapPass]
  | cons x xs ih =>
    by_cases h : key a < key x
    · simp only [swapPass, h, if_pos]
      exact (List.Perm.swap a _ _).trans ((ih x).cons a)
    · simp only [swapPass, h, if_neg, not_false_eq_true, ite_false]
      exact ((List.Perm.swap x _ _).trans ((ih a).cons x)).trans (List.Perm.swap a x xs)

theorem exchangeSortGo_perm {α : Type} (key : α → ℚ) :
    ∀ (fuel : ℕ) (l : List α), l.length ≤ fuel → (exchangeSortGo key fuel l).Perm l := by
  intro fuel
  induction fuel with
  | zero =>
    intro l h
    rw [Nat.le_zero, List.length_eq_zero] at h
    subst h
    simp [exchangeSortGo]
  | succ fuel ih =>
    intro l h
    cases l with
    | nil => simp [exchangeSortGo]
    | cons a xs =>
      rw [exchangeSortGo]
      have hlen : (swapPass key a xs).2.length ≤ fuel := by
        rw [swapPass_length]
        simpa using h
      exact ((ih _ hlen).cons _).trans (swapPass_perm key a xs)

theorem exchangeSortGo_sorted {α : Type} (key : α → ℚ) :
    ∀ (fuel : ℕ) (l : List α), l.length ≤ fuel →
      (exchangeSortGo key fuel l).Pairwise fun x y => key y ≤ key x := by
  intro fuel
  induction fuel with
  | zero =>
    intro l h
    rw [Nat.le_zero, List.length_eq_zero] at h
    subst h
    simp [exchangeSortGo]
  | succ fuel ih =>
    intro l h
    cases l with
    | nil => simp [exchangeSortGo]
    | cons a xs =>
      rw [exchangeSortGo]
      have hlen : (swapPass key a xs).2.length ≤ fuel := by
        rw [swapPass_length]
        simpa using h
      refine List.Pairwise.cons ?_ (ih _ hlen)
      intro y hy
      have hmem : y ∈ (swapPass key a xs).2 :=
        (exchangeSortGo_perm key fuel _ hlen).mem_iff.mp hy
      exact swapPass_snd_key_le key a xs y hmem

theorem exchangeSort_perm {α : Type} (key : α → ℚ) (l : List α) :
    (exchangeSort key l).Perm l :=
  exchangeSortGo_perm key l.length l le_rfl

theorem exchangeSort_sorted {α : Type} (key : α → ℚ) (l : List α) :
    (exchangeSort key l).Pairwise fun x y => key y ≤ key x :=
  exchangeSortGo_sorted key l.length l le_rfl

/-! ## `search/cache.go`: Search -/

/-- `getDocumentFrequencies`: number of distinct sessions whose `term_index`
rows carry the term (`COUNT(DISTINCT session_id) ... GROUP BY term`, absent
terms giving 0). -/
def dfModel (db : DBState) (t : List Char) : ℕ :=
  (((db.termIndex.filter fun r => decide (r.term = t)).map fun r => r.sessionId).dedup).length

/-- `getTermFrequencies`: the stored `term_frequency` for one document and
term, 0 when absent. -/
def tfModel (db : DBState) (sid : List Char) (t : List Char) : ℕ :=
  match db.termIndex.find? fun r => decide (r.term = t) && decide (r.sessionId = sid) with
  | some r => r.freq
  | none => 0

/-- `SearchResult` from `search/cache.go` (the session metadata row stands in
for the reconstructed `adapters.Session`). -/
structure SearchResult where
  session : SessionRow
  score : ℚ
  snippet : List Char
  deriving DecidableEq

/-- The `WHERE` clause of the `Search` query: the session has a `term_index`
row for one of the query terms, and satisfies the optional equality filters
on `source` and `project_path` (empty string meaning no filter). -/
def sessionMatches (db : DBState) (queryTerms : List (List Char))
    (source projectPath : List Char) (s : SessionRow) : Bool :=
  (queryTerms.any fun t =>
      db.termIndex.any fun r => decide (r.term = t) && decide (r.sessionId = s.id)) &&
    (decide (source = []) || decide (s.source = source)) &&
    (decide (projectPath = []) || decide (s.projectPath = projectPath))

/-- The distinct candidate rows of the `Search` join. -/
def searchCandidates (db : DBState) (queryTerms : List (List Char))
    (source projectPath : List Char) : List SessionRow :=
  db.sessions.filter (sessionMatches db queryTerms source projectPath)

/-- `Cache.Search` from `search/cache.go`: tokenize the query (failing when
no terms survive), score each distinct candidate with BM25 under the stored
corpus statistics, extract a snippet, sort by descending score with the
in-place swap sort, and truncate to `limit` when `limit > 0`. -/
def search (log : ℚ → ℚ) (db : DBState) (query source projectPath : List Char)
    (limit : ℕ) : Except CacheErr (List SearchResult) :=
  let queryTerms := Tokenize query
  if queryTerms = [] then .error .invalidQuery
  else
    let scorer : BM25Scorer := ⟨db.statsAvgDocLength, db.statsTotalDocs⟩
    let results := (searchCandidates db queryTerms source projectPath).map fun s =>
      ⟨s, Score log scorer queryTerms (tfModel db s.id) s.docLength (dfModel db),
        GetSnippet s.content queryTerms 300⟩
    let sorted := exchangeSort (fun r : SearchResult => r.score) results
    .ok (if 0 < limit ∧ limit < sorted.length then sorted.take limit else sorted)

/-- C2: whenever the query tokenizes to at least one term and `Search`
succeeds, the result list is sorted by non-increasing score, every returned
session satisfies the `source` and `project_path` equality filters when those
are non-empty, the list has at most `limit` entries when `limit > 0`, and
`limit = 0` imposes no cap (every candidate is returned). -/
theorem search_sorted_filtered_limited (log : ℚ → ℚ) (db : DBState)
    (query source projectPath : List Char) (limit : ℕ) (res : List SearchResult)
    (hq : Tokenize query ≠ [])
    (hok : search log db query source projectPath limit = .ok res) :
    res.Pairwise (fun x y => y.score ≤ x.score) ∧
      (∀ r ∈ res, (source ≠ [] → r.session.source = source) ∧
        (projectPath ≠ [] → r.session.projectPath = projectPath)) ∧
      (0 < limit → res.length ≤ limit) ∧
      (limit = 0 →
        res.length = (searchCandidates db (Tokenize query) source projectPath).length) := by
  rw [search, if_neg hq] at hok
  simp only [Except.ok.injEq] at hok
  set results := (searchCandidates db (Tokenize query) source projectPath).map
    (fun s => (⟨s, Score log ⟨db.statsAvgDocLength, db.statsTotalDocs⟩ (Tokenize query)
      (tfModel db s.id) s.docLength (dfModel db),
      GetSnippet s.content (Tokenize query) 300⟩ : SearchResult)) with hresults
  set sorted := exchangeSort (fun r : SearchResult => r.score) results with hsorted
  have hsort_pw : sorted.Pairwise fun x y => y.score ≤ x.score :=
    exchangeSort_sorted _ results
  have hsort_perm : sorted.Perm results := exchangeSort_perm _ results
  have hres_sub : res.Sublist sorted := by
    rw [← hok]
    split
    · exact List.take_sublist _ _
    · exact List.Sublist.refl _
  refine ⟨hsort_pw.sublist hres_sub, ?_, ?_, ?_⟩
  · intro r hr
    have hrs : r ∈ results := hsort_perm.mem_iff.mp (hres_sub.mem hr)
    rw [hresults, List.mem_map] at hrs
    obtain ⟨s, hs, rfl⟩ := hrs
    rw [searchCandidates, List.mem_filter] at hs
    have hmatch := hs.2
    rw [sessionMatches] at hmatch
    simp only [Bool.and_eq_true, Bool.or_eq_true, decide_eq_true_eq] at hmatch
    constructor
    · intro hsrc
      rcases hmatch.1.2 with h | h
      · exact absurd h hsrc
      · exact h
    · intro hpp
      rcases hmatch.2 with h | h
      · exact absurd h hpp
      · exact h
  · intro hlim
    rw [← hok]
    split
    · next hcond => simp [le_of_lt hcond.2]
    · next hcond =>
      rw [not_and, not_lt] at hcond
      exact hcond hlim
  · intro hlim
    subst hlim
    rw [← hok, if_neg (by simp), hsort_perm.length_eq, hresults, List.length_map]

/-- The one-session result list of a concrete search over `dbEx2`. -/
def resEx : List SearchResult :=
  match search (fun _ => 0) dbEx2 ['g', 'o'] [] [] 0 with
  | .ok r => r
  | .error _ => []

theorem search_sorted_filtered_limited_witness :
    resEx.Pairwise (fun x y => y.score ≤ x.score) ∧
      resEx.length = (searchCandidates dbEx2 (Tokenize ['g', 'o']) [] []).length := by
  have h := search_sorted_filtered_limited (fun _ => 0) dbEx2 ['g', 'o'] [] [] 0 resEx
    (by decide) (by rfl)
  exact ⟨h.1, h.2.2.2 rfl⟩

/-! ## Adapter `GetSession` pagination

All three adapters (`claude.go`, `codex.go`, `opencode.go`) paginate the
same way: `start := page * pageSize`; when `start >= len(messages)` return an
empty slice; otherwise return `messages[start:min(start+pageSize, len)]`, and
fail with "session not found" when no artifact carries the id. -/

/-- Errors surfaced by the adapter models. -/
inductive AdapterErr where
  | notFound
  deriving DecidableEq

/-- The pagination block shared by every adapter's `GetSession`. -/
def paginate {α : Type} (messages : List α) (page pageSize : ℕ) : List α :=
  let start := page * pageSize
  if start ≥ messages.length then []
  else
    let stop := if start + pageSize > messages.length then messages.length
      else start + pageSize
    (messages.drop start).take (stop - start)

/-- An adapter's `GetSession`: the on-disk artifacts are a list of
`(session id, messages)` pairs; the call fails with not-found when no
artifact carries the id, and otherwise paginates that artifact's messages. -/
def getSessionModel {α : Type} (store : List (List Char × List α))
    (sessionID : List Char) (page pageSize : ℕ) : Except AdapterErr (List α) :=
  match store.find? fun e => decide (e.1 = sessionID) with
  | none => .error .notFound
  | some e => .ok (paginate e.2 page pageSize)

/-- C7: adapter pagination is 0-indexed in whole-message slices
(page `p` is exactly `drop (p*pageSize)` then `take pageSize`), any
out-of-range page yields the empty list and never an error, and the call
fails with not-found exactly when no artifact carries the id. -/
theorem getSession_pagination {α : Type} (store : List (List Char × List α))
    (sessionID : List Char) (page pageSize : ℕ) (ms : List α)
    (art : List Char × List α) :
    (paginate ms page pageSize = (ms.drop (page * pageSize)).take pageSize) ∧
      (ms.length ≤ page * pageSize → paginate ms page pageSize = []) ∧
      (store.find? (fun e => decide (e.1 = sessionID)) = some art →
        getSessionModel store sessionID page pageSize =
          .ok (paginate art.2 page pageSize)) ∧
      (store.find? (fun e => decide (e.1 = sessionID)) = none →
        getSessionModel store sessionID page pageSize = .error .notFound) := by
  have hmain : paginate ms page pageSize = (ms.drop (page * pageSize)).take pageSize := by
    rw [paginate]
    by_cases h : page * pageSize ≥ ms.length
    · rw [if_pos h, List.drop_eq_nil_of_le h]
      simp
    · rw [if_neg h]
      push_neg at h
      by_cases h2 : page * pageSize + pageSize > ms.length
      · rw [if_pos h2]
        have e1 : (ms.drop (page * pageSize)).take (ms.length - page * pageSize) =
            ms.drop (page * pageSize) := by
          apply List.take_of_length_le
          rw [List.length_drop]
        have e2 : (ms.drop (page * pageSize)).take pageSize =
            ms.drop (page * pageSize) := by
          apply List.take_of_length_le
          rw [List.length_drop]
          omega
        rw [e1, e2]
      · rw [if_neg h2]
        have e3 : page * pageSize + pageSize - page * pageSize = pageSize := by omega
        show List.take (page * pageSize + pageSize - page * pageSize)
          (List.drop (page * pageSize) ms) =
          List.take pageSize (List.drop (page * pageSize) ms)
        rw [e3]
  refine ⟨hmain, ?_, ?_, ?_⟩
  · intro h
    rw [hmain, List.drop_eq_nil_of_le h]
    simp
  · intro h
    rw [getSessionModel, h]
  · intro h
    rw [getSessionModel, h]

theorem getSession_pagination_witness :
    getSessionModel [(['a'], [1, 2, 3])] ['a'] 5 2 =
        .ok (paginate ([1, 2, 3] : List ℕ) 5 2) ∧
      paginate ([1, 2, 3] : List ℕ) 5 2 = [] ∧
      getSessionModel ([(['a'], [1, 2, 3])] : List (List Char × List ℕ)) ['b'] 0 2 =
        .error .notFound := by
  have h1 := getSession_pagination [(['a'], [1, 2, 3])] ['a'] 5 2
    ([1, 2, 3] : List ℕ) (['a'], [1, 2, 3])
  have h2 := getSession_pagination [(['a'], [1, 2, 3])] ['b'] 0 2
    ([1, 2, 3] : List ℕ) (['a'], [1, 2, 3])
  exact ⟨h1.2.2.1 (by decide), h1.2.1 (by decide), h2.2.2.2 (by decide)⟩

/-! ## `adapters/codex.go`: scanning a rollout file -/

/-- Go `unicode.IsSpace` on U+0000–U+00FF: `\t`, `\n`, `\v`, `\f`, `\r`,
space, U+0085 and U+00A0. -/
def goIsSpace (c : Char) : Bool :=
  c.toNat == 0x20 || c.toNat == 0x09 || (0x0A ≤ c.toNat && c.toNat ≤ 0x0D) ||
    c.toNat == 0x85 || c.toNat == 0xA0

/-- Go `strings.TrimSpace`. -/
def trimSpace (s : List Char) : List Char :=
  ((s.dropWhile goIsSpace).reverse.dropWhile goIsSpace).reverse

/-- One content block of a Codex `response_item` message payload. -/
structure CodexBlock where
  btype : List Char
  text : List Char
  deriving DecidableEq

/-- One line of a Codex rollout JSONL file, after JSON decoding: the envelope
type with the payload fields the scanner reads.  `responseItem` carries the
payload `type`, the `role`, the content blocks and the envelope timestamp
(empty when absent); `other` stands for any other envelope. -/
inductive CodexEntry where
  | sessionMeta (cwd sid ts : Option (List Char))
  | turnContext (cwd : Option (List Char))
  | responseItem (ptype role : List Char) (content : List CodexBlock) (ts : List Char)
  | other
  deriving DecidableEq

/-- `extractUserText` from `adapters/codex.go`: concatenate the `text` of the
`input_text` blocks (joined with the empty string). -/
def extractUserText (content : List CodexBlock) : List Char :=
  (content.filterMap fun blk =>
    if blk.btype = "input_text".toList then some blk.text else none).flatten

/-- `isSessionPrefix` from `adapters/codex.go`: the trimmed text is enclosed
in `<user_instructions>…</user_instructions>` or
`<environment_context>…</environment_context>`, case-insensitively. -/
def isSessionPrefix (text : List Char) : Bool :=
  if text = [] then false
  else
    let lower := text.map goToLowerChar
    ("<user_instructions>".toList.isPrefixOf lower &&
        "</user_instructions>".toList.isSuffixOf lower) ||
      ("<environment_context>".toList.isPrefixOf lower &&
        "</environment_context>".toList.isSuffixOf lower)

/-- The prefix of `s` holding at most `n` UTF-8 bytes (Go's `s[:n]`, stopped
at a rune boundary). -/
def takeBytes : ℕ → List Char → List Char
  | _, [] => []
  | n, c :: rest =>
    if utf8CharLen c ≤ n then c :: takeBytes (n - utf8CharLen c) rest else []

/-- `extractFirstLine` from `adapters/codex.go`: the first non-empty trimmed
line, truncated to 200 bytes with a trailing ellipsis. -/
def extractFirstLine (text : List Char) : List Char :=
  match (text.splitOn '\n').find? fun line => decide (trimSpace line ≠ []) with
  | some line =>
    let trimmed := trimSpace line
    if utf8Len trimmed > 200 then takeBytes 200 trimmed ++ dots else trimmed
  | none => []

/-- `sessionInfo` from `adapters/codex.go` (empty strings for unset
fields). -/
structure SInfo where
  id : List Char
  cwd : List Char
  firstUserMessage : List Char
  firstMessageTimestamp : List Char
  sessionMetaTimestamp : List Char
  userMessageCount : ℕ
  deriving DecidableEq

/-- The zero-valued `sessionInfo` the scan starts from. -/
def initSInfo : SInfo := ⟨[], [], [], [], [], 0⟩

/-- The cwd block of the scan switch: set `info.CWD` when the payload carries
a cwd and it is still empty; `cwd` goes through symlink resolution, modelled
by the `resolve` parameter. -/
def setCwd (resolve : List Char → List Char) (info : SInfo)
    (cwd : Option (List Char)) : SInfo :=
  match cwd with
  | some c => if info.cwd = [] then { info with cwd := resolve c } else info
  | none => info

/-- The id block of the `session_meta` case. -/
def setId (info : SInfo) (sid : Option (List Char)) : SInfo :=
  match sid with
  | some i => if info.id = [] then { info with id := i } else info
  | none => info

/-- The timestamp block of the `session_meta` case. -/
def setMetaTs (info : SInfo) (ts : Option (List Char)) : SInfo :=
  match ts with
  | some t =>
    if info.sessionMetaTimestamp = [] then { info with sessionMetaTimestamp := t }
    else info
  | none => info

/-- The `session_meta`/`turn_context` cases of the scan switch. -/
def metaStep (resolve : List Char → List Char) (info : SInfo) (e : CodexEntry) : SInfo :=
  match e with
  | .sessionMeta cwd sid ts => setMetaTs (setId (setCwd resolve info cwd) sid) ts
  | .turnContext cwd => setCwd resolve info cwd
  | _ => info

/-- The `response_item` case of the full scan: skip empty or session-prefix
user messages, otherwise count them and record the first one. -/
def userStep (info : SInfo) (e : CodexEntry) : SInfo :=
  match e with
  | .responseItem ptype role content ts =>
    if ptype = "message".toList ∧ role = "user".toList then
      let text := extractUserText content
      let trimmed := trimSpace text
      if trimmed = [] ∨ isSessionPrefix trimmed = true then info
      else
        let info1 := { info with userMessageCount := info.userMessageCount + 1 }
        if info1.firstUserMessage = [] then
          { info1 with
            firstUserMessage := extractFirstLine text,
            firstMessageTimestamp :=
              if ts = [] then info1.sessionMetaTimestamp else ts }
        else info1
    else info
  | _ => info

/-- One iteration of the full-scan loop of `scanRolloutFile`. -/
def scanStep (resolve : List Char → List Char) (info : SInfo) (e : CodexEntry) : SInfo :=
  userStep (metaStep resolve info e) e

/-- The full-parse loop of `scanRolloutFile` (taken when the raw bytes
contain `"role":"user"`). -/
def fullScan (resolve : List Char → List Char) (entries : List CodexEntry)
    (info : SInfo) : SInfo :=
  entries.foldl (scanStep resolve) info

/-- The quick loop of `scanRolloutFile` (no user messages present): only
`session_meta`/`turn_context` are read, with an early break once both the
cwd and the id are known. -/
def quickScan (resolve : List Char → List Char) : List CodexEntry → SInfo → SInfo
  | [], info => info
  | e :: rest, info =>
    let info2 := metaStep resolve info e
    if info2.cwd ≠ [] ∧ info2.id ≠ [] then info2 else quickScan resolve rest info2

/-- `scanRolloutFile` from `adapters/codex.go`: the two scan modes, chosen by
the byte-level pre-check for `"role":"user"` (the `hasUserMessages` flag). -/
def scanRolloutFile (resolve : List Char → List Char) (hasUserMessages : Bool)
    (entries : List CodexEntry) : SInfo :=
  if hasUserMessages then fullScan resolve entries initSInfo
  else { quickScan resolve entries initSInfo with userMessageCount := 0 }

/-- The first session id carried by a `session_meta` entry. -/
def firstMetaId (entries : List CodexEntry) : Option (List Char) :=
  entries.findSome? fun e => match e with
    | .sessionMeta _ i _ => i
    | _ => none

/-- The first cwd carried by a `session_meta` or `turn_context` entry. -/
def firstCwd (entries : List CodexEntry) : Option (List Char) :=
  entries.findSome? fun e => match e with
    | .sessionMeta c _ _ => c
    | .turnContext c => c
    | _ => none

theorem setCwd_fields (resolve : List Char → List Char) (info : SInfo)
    (cwd : Option (List Char)) :
    (setCwd resolve info cwd).id = info.id ∧
      (setCwd resolve info cwd).userMessageCount = info.userMessageCount ∧
      (setCwd resolve info cwd).firstUserMessage = info.firstUserMessage := by
  cases cwd <;> simp only [setCwd] <;> (try split) <;> simp

theorem setId_fields (info : SInfo) (sid : Option (List Char)) :
    (setId info sid).cwd = info.cwd ∧
      (setId info sid).userMessageCount = info.userMessageCount ∧
      (setId info sid).firstUserMessage = info.firstUserMessage := by
  cases sid <;> simp only [setId] <;> (try split) <;> simp

theorem setMetaTs_fields (info : SInfo) (ts : Option (List Char)) :
    (setMetaTs info ts).cwd = info.cwd ∧ (setMetaTs info ts).id = info.id ∧
      (setMetaTs info ts).userMessageCount = info.userMessageCount ∧
      (setMetaTs info ts).firstUserMessage = info.firstUserMessage := by
  cases ts <;> simp only [setMetaTs] <;> (try split) <;> simp

theorem setCwd_cwd_of_ne (resolve : List Char → List Char) (info : SInfo)
    (cwd : Option (List Char)) (h : info.cwd ≠ []) :
    (setCwd resolve info cwd).cwd = info.cwd := by
  cases cwd with
  | none => rfl
  | some c =>
    simp only [setCwd]
    rw [if_neg h]

theorem setId_id_of_ne (info : SInfo) (sid : Option (List Char)) (h : info.id ≠ []) :
    (setId info sid).id = info.id := by
  cases sid with
  | none => rfl
  | some i =>
    simp only [setId]
    rw [if_neg h]

theorem setCwd_cwd_some (resolve : List Char → List Char) (info : SInfo)
    (c : List Char) (h : info.cwd = []) :
    (setCwd resolve info (some c)).cwd = resolve c := by
  simp [setCwd, h]

theorem setId_id_some (info : SInfo) (i : List Char) (h : info.id = []) :
    (setId info (some i)).id = i := by
  simp [setId, h]

theorem userStep_meta_fields (info : SInfo) (e : CodexEntry) :
    (userStep info e).id = info.id ∧ (userStep info e).cwd = info.cwd ∧
      (userStep info e).sessionMetaTimestamp = info.sessionMetaTimestamp := by
  cases e <;> simp only [userStep] <;> (repeat' split) <;> simp

theorem userStep_skip (info : SInfo) (ptype role : List Char)
    (content : List CodexBlock) (ts : List Char)
    (hp : ptype = "message".toList) (hr : role = "user".toList)
    (hpre : trimSpace (extractUserText content) = [] ∨
      isSessionPrefix (trimSpace (extractUserText content)) = true) :
    userStep info (.responseItem ptype role content ts) = info := by
  simp only [userStep]
  rw [if_pos ⟨hp, hr⟩, if_pos hpre]

theorem metaStep_count_first (resolve : List Char → List Char) (info : SInfo)
    (e : CodexEntry) :
    (metaStep resolve info e).userMessageCount = info.userMessageCount ∧
      (metaStep resolve info e).firstUserMessage = info.firstUserMessage := by
  cases e with
  | sessionMeta cwd sid ts =>
    have h1 := setCwd_fields resolve info cwd
    have h2 := setId_fields (setCwd resolve info cwd) sid
    have h3 := setMetaTs_fields (setId (setCwd resolve info cwd) sid) ts
    exact ⟨by rw [metaStep, h3.2.2.1, h2.2.1, h1.2.1],
      by rw [metaStep, h3.2.2.2, h2.2.2, h1.2.2]⟩
  | turnContext cwd =>
    exact ⟨(setCwd_fields resolve info cwd).2.1, (setCwd_fields resolve info cwd).2.2⟩
  | responseItem ptype role content ts => exact ⟨rfl, rfl⟩
  | other => exact ⟨rfl, rfl⟩

theorem metaStep_id_of_ne (resolve : List Char → List Char) (info : SInfo)
    (e : CodexEntry) (h : info.id ≠ []) :
    (metaStep resolve info e).id = info.id := by
  cases e with
  | sessionMeta cwd sid ts =>
    rw [metaStep, (setMetaTs_fields _ ts).2.1,
      setId_id_of_ne _ sid (by rw [(setCwd_fields resolve info cwd).1]; exact h),
      (setCwd_fields resolve info cwd).1]
  | turnContext cwd => exact (setCwd_fields resolve info cwd).1
  | responseItem ptype role content ts => rfl
  | other => rfl

theorem metaStep_cwd_of_ne (resolve : List Char → List Char) (info : SInfo)
    (e : CodexEntry) (h : info.cwd ≠ []) :
    (metaStep resolve info e).cwd = info.cwd := by
  cases e with
  | sessionMeta cwd sid ts =>
    rw [metaStep, (setMetaTs_fields _ ts).1, (setId_fields _ sid).1,
      setCwd_cwd_of_ne resolve info cwd h]
  | turnContext cwd => exact setCwd_cwd_of_ne resolve info cwd h
  | responseItem ptype role content ts => rfl
  | other => rfl

theorem scanStep_id_of_ne (resolve : List Char → List Char) (info : SInfo)
    (e : CodexEntry) (h : info.id ≠ []) :
    (scanStep resolve info e).id = info.id := by
  rw [scanStep, (userStep_meta_fields _ _).1, metaStep_id_of_ne resolve info e h]

theorem scanStep_cwd_of_ne (resolve : List Char → List Char) (info : SInfo)
    (e : CodexEntry) (h : info.cwd ≠ []) :
    (scanStep resolve info e).cwd = info.cwd := by
  rw [scanStep, (userStep_meta_fields _ _).2.1, metaStep_cwd_of_ne resolve info e h]

theorem fullScan_id_stable (resolve : List Char → List Char) :
    ∀ (entries : List CodexEntry) (info : SInfo), info.id ≠ [] →
      (fullScan resolve entries info).id = info.id := by
  intro entries
  induction entries with
  | nil => intro info _; rfl
  | cons e rest ih =>
    intro info h
    have hid := scanStep_id_of_ne resolve info e h
    have hrec := ih (scanStep resolve info e) (by rw [hid]; exact h)
    simp only [fullScan, List.foldl_cons] at hrec ⊢
    rw [hrec, hid]

theorem fullScan_cwd_stable (resolve : List Char → List Char) :
    ∀ (entries : List CodexEntry) (info : SInfo), info.cwd ≠ [] →
      (fullScan resolve entries info).cwd = info.cwd := by
  intro entries
  induction entries with
  | nil => intro info _; rfl
  | cons e rest ih =>
    intro info h
    have hcwd := scanStep_cwd_of_ne resolve info e h
    have hrec := ih (scanStep resolve info e) (by rw [hcwd]; exact h)
    simp only [fullScan, List.foldl_cons] at hrec ⊢
    rw [hrec, hcwd]

theorem fullScan_count_first (resolve : List Char → List Char) :
    ∀ (entries : List CodexEntry) (info : SInfo),
      (∀ ptype role content ts,
        CodexEntry.responseItem ptype role content ts ∈ entries →
        ptype = "message".toList → role = "user".toList →
        trimSpace (extractUserText content) = [] ∨
          isSessionPrefix (trimSpace (extractUserText content)) = true) →
      (fullScan resolve entries info).userMessageCount = info.userMessageCount ∧
        (fullScan resolve entries info).firstUserMessage = info.firstUserMessage := by
  intro entries
  induction entries with
  | nil => intro info _; exact ⟨rfl, rfl⟩
  | cons e rest ih =>
    intro info hpre
    have hstep : (scanStep resolve info e).userMessageCount = info.userMessageCount ∧
        (scanStep resolve info e).firstUserMessage = info.firstUserMessage := by
      cases e with
      | responseItem ptype role content ts =>
        by_cases hp : ptype = "message".toList ∧ role = "user".toList
        · have := userStep_skip info ptype role content ts hp.1 hp.2
            (hpre ptype role content ts (by simp) hp.1 hp.2)
          rw [scanStep]
          show (userStep info (CodexEntry.responseItem ptype role content ts)).userMessageCount =
              info.userMessageCount ∧
            (userStep info (CodexEntry.responseItem ptype role content ts)).firstUserMessage =
              info.firstUserMessage
          rw [this]
          exact ⟨rfl, rfl⟩
        · rw [scanStep]
          show (userStep info (CodexEntry.responseItem ptype role content ts)).userMessageCount =
              info.userMessageCount ∧
            (userStep info (CodexEntry.responseItem ptype role content ts)).firstUserMessage =
              info.firstUserMessage
          simp only [userStep]
          rw [if_neg hp]
          exact ⟨rfl, rfl⟩
      | sessionMeta cwd sid ts => exact metaStep_count_first resolve info _
      | turnContext cwd => exact metaStep_count_first resolve info _
      | other => exact ⟨rfl, rfl⟩
    have hrest := ih (scanStep resolve info e)
      (fun p r c t hm => hpre p r c t (List.mem_cons_of_mem _ hm))
    simp only [fullScan, List.foldl_cons] at hrest ⊢
    exact ⟨hrest.1.trans hstep.1, hrest.2.trans hstep.2⟩

theorem fullScan_id_first (resolve : List Char → List Char) :
    ∀ (entries : List CodexEntry) (info : SInfo), info.id = [] →
      (∀ cwd i ts, CodexEntry.sessionMeta cwd (some i) ts ∈ entries → i ≠ []) →
      (fullScan resolve entries info).id = (firstMetaId entries).getD [] := by
  intro entries
  induction entries with
  | nil =>
    intro info h _
    simp [fullScan, firstMetaId, h]
  | cons e rest ih =>
    intro info h hids
    cases e with
    | sessionMeta cwd sid ts =>
      cases sid with
      | some i =>
        have hi : i ≠ [] := hids cwd i ts (by simp)
        have hset : (scanStep resolve info (.sessionMeta cwd (some i) ts)).id = i := by
          rw [scanStep, (userStep_meta_fields _ _).1, metaStep,
            (setMetaTs_fields _ ts).2.1,
            setId_id_some _ i (by rw [(setCwd_fields resolve info cwd).1]; exact h)]
        have := fullScan_id_stable resolve rest (scanStep resolve info _)
          (by rw [hset]; exact hi)
        simp only [fullScan, List.foldl_cons] at this ⊢
        rw [this, hset]
        simp [firstMetaId, List.findSome?_cons]
      | none =>
        have hkeep : (scanStep resolve info (.sessionMeta cwd none ts)).id = [] := by
          rw [scanStep, (userStep_meta_fields _ _).1, metaStep,
            (setMetaTs_fields _ ts).2.1]
          show (setCwd resolve info cwd).id = []
          rw [(setCwd_fields resolve info cwd).1]
          exact h
        have := ih (scanStep resolve info _) hkeep
          (fun cwd2 i2 ts2 hm => hids cwd2 i2 ts2 (List.mem_cons_of_mem _ hm))
        simp only [fullScan, List.foldl_cons] at this ⊢
        rw [this]
        simp [firstMetaId, List.findSome?_cons]
    | turnContext cwd =>
      have hkeep : (scanStep resolve info (.turnContext cwd)).id = [] := by
        rw [scanStep, (userStep_meta_fields _ _).1]
        show (setCwd resolve info cwd).id = []
        rw [(setCwd_fields resolve info cwd).1]
        exact h
      have := ih (scanStep resolve info _) hkeep
        (fun cwd2 i2 ts2 hm => hids cwd2 i2 ts2 (List.mem_cons_of_mem _ hm))
      simp only [fullScan, List.foldl_cons] at this ⊢
      rw [this]
      simp [firstMetaId, List.findSome?_cons]
    | responseItem ptype role content ts =>
      have hkeep : (scanStep resolve info (.responseItem ptype role content ts)).id = [] := by
        rw [scanStep, (userStep_meta_fields _ _).1]
        exact h
      have := ih (scanStep resolve info _) hkeep
        (fun cwd2 i2 ts2 hm => hids cwd2 i2 ts2 (List.mem_cons_of_mem _ hm))
      simp only [fullScan, List.foldl_cons] at this ⊢
      rw [this]
      simp [firstMetaId, List.findSome?_cons]
    | other =>
      have hkeep : (scanStep resolve info CodexEntry.other).id = [] := by
        rw [scanStep, (userStep_meta_fields _ _).1]
        exact h
      have := ih (scanStep resolve info _) hkeep
        (fun cwd2 i2 ts2 hm => hids cwd2 i2 ts2 (List.mem_cons_of_mem _ hm))
      simp only [fullScan, List.foldl_cons] at this ⊢
      rw [this]
      simp [firstMetaId, List.findSome?_cons]

theorem fullScan_cwd_first (resolve : List Char → List Char) :
    ∀ (entries : List CodexEntry) (info : SInfo), info.cwd = [] →
      (∀ c sid ts, CodexEntry.sessionMeta (some c) sid ts ∈ entries → resolve c ≠ []) →
      (∀ c, CodexEntry.turnContext (some c) ∈ entries → resolve c ≠ []) →
      (fullScan resolve entries info).cwd = ((firstCwd entries).map resolve).getD [] := by
  intro entries
  induction entries with
  | nil =>
    intro info h _ _
    simp [fullScan, firstCwd, h]
  | cons e rest ih =>
    intro info h hcm hct
    cases e with
    | sessionMeta cwd sid ts =>
      cases cwd with
      | some c =>
        have hc : resolve c ≠ [] := hcm c sid ts (by simp)
        have hset : (scanStep resolve info (.sessionMeta (some c) sid ts)).cwd = resolve c := by
          rw [scanStep, (userStep_meta_fields _ _).2.1, metaStep,
            (setMetaTs_fields _ ts).1, (setId_fields _ sid).1,
            setCwd_cwd_some resolve info c h]
        have := fullScan_cwd_stable resolve rest (scanStep resolve info _)
          (by rw [hset]; exact hc)
        simp only [fullScan, List.foldl_cons] at this ⊢
        rw [this, hset]
        simp [firstCwd, List.findSome?_cons]
      | none =>
        have hkeep : (scanStep resolve info (.sessionMeta none sid ts)).cwd = [] := by
          rw [scanStep, (userStep_meta_fields _ _).2.1, metaStep,
            (setMetaTs_fields _ ts).1, (setId_fields _ sid).1]
          show (setCwd resolve info none).cwd = []
          exact h
        have := ih (scanStep resolve info _) hkeep
          (fun c2 sid2 ts2 hm => hcm c2 sid2 ts2 (List.mem_cons_of_mem _ hm))
          (fun c2 hm => hct c2 (List.mem_cons_of_mem _ hm))
        simp only [fullScan, List.foldl_cons] at this ⊢
        rw [this]
        simp [firstCwd, List.findSome?_cons]
    | turnContext cwd =>
      cases cwd with
      | some c =>
        have hc : resolve c ≠ [] := hct c (by simp)
        have hset : (scanStep resolve info (.turnContext (some c))).cwd = resolve c := by
          rw [scanStep, (userStep_meta_fields _ _).2.1]
          exact setCwd_cwd_some resolve info c h
        have := fullScan_cwd_stable resolve rest (scanStep resolve info _)
          (by rw [hset]; exact hc)
        simp only [fullScan, List.foldl_cons] at this ⊢
        rw [this, hset]
        simp [firstCwd, List.findSome?_cons]
      | none =>
        have hkeep : (scanStep resolve info (.turnContext none)).cwd = [] := by
          rw [scanStep, (userStep_meta_fields _ _).2.1]
          exact h
        have := ih (scanStep resolve info _) hkeep
          (fun c2 sid2 ts2 hm => hcm c2 sid2 ts2 (List.mem_cons_of_mem _ hm))
          (fun c2 hm => hct c2 (List.mem_cons_of_mem _ hm))
        simp only [fullScan, List.foldl_cons] at this ⊢
        rw [this]
        simp [firstCwd, List.findSome?_cons]
    | responseItem ptype role content ts =>
      have hkeep : (scanStep resolve info (.responseItem ptype role content ts)).cwd = [] := by
        rw [scanStep, (userStep_meta_fields _ _).2.1]
        exact h
      have := ih (scanStep resolve info _) hkeep
        (fun c2 sid2 ts2 hm => hcm c2 sid2 ts2 (List.mem_cons_of_mem _ hm))
        (fun c2 hm => hct c2 (List.mem_cons_of_mem _ hm))
      simp only [fullScan, List.foldl_cons] at this ⊢
      rw [this]
      simp [firstCwd, List.findSome?_cons]
    | other =>
      have hkeep : (scanStep resolve info CodexEntry.other).cwd = [] := by
        rw [scanStep, (userStep_meta_fields _ _).2.1]
        exact h
      have := ih (scanStep resolve info _) hkeep
        (fun c2 sid2 ts2 hm => hcm c2 sid2 ts2 (List.mem_cons_of_mem _ hm))
        (fun c2 hm => hct c2 (List.mem_cons_of_mem _ hm))
      simp only [fullScan, List.foldl_cons] at this ⊢
      rw [this]
      simp [firstCwd, List.findSome?_cons]

theorem quickScan_user_fields (resolve : List Char → List Char) :
    ∀ (entries : List CodexEntry) (info : SInfo),
      (quickScan resolve entries info).userMessageCount = info.userMessageCount ∧
        (quickScan resolve entries info).firstUserMessage = info.firstUserMessage := by
  intro entries
  induction entries with
  | nil => intro info; exact ⟨rfl, rfl⟩
  | cons e rest ih =>
    intro info
    have hm := metaStep_count_first resolve info e
    simp only [quickScan]
    split
    · exact hm
    · exact ⟨(ih _).1.trans hm.1, (ih _).2.trans hm.2⟩

theorem quickScan_id_stable (resolve : List Char → List Char) :
    ∀ (entries : List CodexEntry) (info : SInfo), info.id ≠ [] →
      (quickScan resolve entries info).id = info.id := by
  intro entries
  induction entries with
  | nil => intro info _; rfl
  | cons e rest ih =>
    intro info h
    have hid := metaStep_id_of_ne resolve info e h
    simp only [quickScan]
    split
    · exact hid
    · rw [ih _ (by rw [hid]; exact h), hid]

theorem quickScan_cwd_stable (resolve : List Char → List Char) :
    ∀ (entries : List CodexEntry) (info : SInfo), info.cwd ≠ [] →
      (quickScan resolve entries info).cwd = info.cwd := by
  intro entries
  induction entries with
  | nil => intro info _; rfl
  | cons e rest ih =>
    intro info h
    have hcwd := metaStep_cwd_of_ne resolve info e h
    simp only [quickScan]
    split
    · exact hcwd
    · rw [ih _ (by rw [hcwd]; exact h), hcwd]

theorem quickScan_id_first (resolve : List Char → List Char) :
    ∀ (entries : List CodexEntry) (info : SInfo), info.id = [] →
      (∀ cwd i ts, CodexEntry.sessionMeta cwd (some i) ts ∈ entries → i ≠ []) →
      (quickScan resolve entries info).id = (firstMetaId entries).getD [] := by
  intro entries
  induction entries with
  | nil =>
    intro info h _
    simp [quickScan, firstMetaId, h]
  | cons e rest ih =>
    intro info h hids
    cases e with
    | sessionMeta cwd sid ts =>
      cases sid with
      | some i =>
        have hi : i ≠ [] := hids cwd i ts (by simp)
        have hset : (metaStep resolve info (.sessionMeta cwd (some i) ts)).id = i := by
          rw [metaStep, (setMetaTs_fields _ ts).2.1,
            setId_id_some _ i (by rw [(setCwd_fields resolve info cwd).1]; exact h)]
        simp only [quickScan]
        split
        · rw [hset]
          simp [firstMetaId, List.findSome?_cons]
        · rw [quickScan_id_stable resolve rest _ (by rw [hset]; exact hi), hset]
          simp [firstMetaId, List.findSome?_cons]
      | none =>
        have hkeep : (metaStep resolve info (.sessionMeta cwd none ts)).id = [] := by
          rw [metaStep, (setMetaTs_fields _ ts).2.1]
          show (setCwd resolve info cwd).id = []
          rw [(setCwd_fields resolve info cwd).1]
          exact h
        simp only [quickScan]
        split
        · next hcond => exact absurd hkeep hcond.2
        · rw [ih _ hkeep (fun a c d hm => hids a c d (List.mem_cons_of_mem _ hm))]
          simp [firstMetaId, List.findSome?_cons]
    | turnContext cwd =>
      have hkeep : (metaStep resolve info (.turnContext cwd)).id = [] := by
        show (setCwd resolve info cwd).id = []
        rw [(setCwd_fields resolve info cwd).1]
        exact h
      simp only [quickScan]
      split
      · next hcond => exact absurd hkeep hcond.2
      · rw [ih _ hkeep (fun a c d hm => hids a c d (List.mem_cons_of_mem _ hm))]
        simp [firstMetaId, List.findSome?_cons]
    | responseItem ptype role content ts =>
      have hkeep : (metaStep resolve info (.responseItem ptype role content ts)).id = [] := h
      simp only [quickScan]
      split
      · next hcond => exact absurd hkeep hcond.2
      · rw [ih _ hkeep (fun a c d hm => hids a c d (List.mem_cons_of_mem _ hm))]
        simp [firstMetaId, List.findSome?_cons]
    | other =>
      have hkeep : (metaStep resolve info CodexEntry.other).id = [] := h
      simp only [quickScan]
      split
      · next hcond => exact absurd hkeep hcond.2
      · rw [ih _ hkeep (fun a c d hm => hids a c d (List.mem_cons_of_mem _ hm))]
        simp [firstMetaId, List.findSome?_cons]

theorem quickScan_cwd_first (resolve : List Char → List Char) :
    ∀ (entries : List CodexEntry) (info : SInfo), info.cwd = [] →
      (∀ c sid ts, CodexEntry.sessionMeta (some c) sid ts ∈ entries → resolve c ≠ []) →
      (∀ c, CodexEntry.turnContext (some c) ∈ entries → resolve c ≠ []) →
      (quickScan resolve entries info).cwd = ((firstCwd entries).map resolve).getD [] := by
  intro entries
  induction entries with
  | nil =>
    intro info h _ _
    simp [quickScan, firstCwd, h]
  | cons e rest ih =>
    intro info h hcm hct
    cases e with
    | sessionMeta cwd sid ts =>
      cases cwd with
      | some c =>
        have hc : resolve c ≠ [] := hcm c sid ts (by simp)
        have hset : (metaStep resolve info (.sessionMeta (some c) sid ts)).cwd = resolve c := by
          rw [metaStep, (setMetaTs_fields _ ts).1, (setId_fields _ sid).1,
            setCwd_cwd_some resolve info c h]
        simp only [quickScan]
        split
        · rw [hset]
          simp [firstCwd, List.findSome?_cons]
        · rw [quickScan_cwd_stable resolve rest _ (by rw [hset]; exact hc), hset]
          simp [firstCwd, List.findSome?_cons]
      | none =>
        have hkeep : (metaStep resolve info (.sessionMeta none sid ts)).cwd = [] := by
          rw [metaStep, (setMetaTs_fields _ ts).1, (setId_fields _ sid).1]
          exact h
        simp only [quickScan]
        split
        · next hcond => exact absurd hkeep hcond.1
        · rw [ih _ hkeep (fun a c d hm => hcm a c d (List.mem_cons_of_mem _ hm))
            (fun a hm => hct a (List.mem_cons_of_mem _ hm))]
          simp [firstCwd, List.findSome?_cons]
    | turnContext cwd =>
      cases cwd with
      | some c =>
        have hc : resolve c ≠ [] := hct c (by simp)
        have hset : (metaStep resolve info (.turnContext (some c))).cwd = resolve c :=
          setCwd_cwd_some resolve info c h
        simp only [quickScan]
        split
        · rw [hset]
          simp [firstCwd, List.findSome?_cons]
        · rw [quickScan_cwd_stable resolve rest _ (by rw [hset]; exact hc), hset]
          simp [firstCwd, List.findSome?_cons]
      | none =>
        have hkeep : (metaStep resolve info (.turnContext none)).cwd = [] := h
        simp only [quickScan]
        split
        · next hcond => exact absurd hkeep hcond.1
        · rw [ih _ hkeep (fun a c d hm => hcm a c d (List.mem_cons_of_mem _ hm))
            (fun a hm => hct a (List.mem_cons_of_mem _ hm))]
          simp [firstCwd, List.findSome?_cons]
    | responseItem ptype role content ts =>
      have hkeep : (metaStep resolve info (.responseItem ptype role content ts)).cwd = [] := h
      simp only [quickScan]
      split
      · next hcond => exact absurd hkeep hcond.1
      · rw [ih _ hkeep (fun a c d hm => hcm a c d (List.mem_cons_of_mem _ hm))
          (fun a hm => hct a (List.mem_cons_of_mem _ hm))]
        simp [firstCwd, List.findSome?_cons]
    | other =>
      have hkeep : (metaStep resolve info CodexEntry.other).cwd = [] := h
      simp only [quickScan]
      split
      · next hcond => exact absurd hkeep hcond.1
      · rw [ih _ hkeep (fun a c d hm => hcm a c d (List.mem_cons_of_mem _ hm))
          (fun a hm => hct a (List.mem_cons_of_mem _ hm))]
        simp [firstCwd, List.findSome?_cons]

/-- C8: for a Codex rollout log whose user messages all trim to text enclosed
in `<user_instructions>…</user_instructions>` or
`<environment_context>…</environment_context>` (case-insensitively), the scan
reports `user_message_count = 0` and an empty `first_message`, while still
reporting the first session id found in a `session_meta` entry and the
(resolved) first cwd found in a `session_meta`/`turn_context` entry — on both
the fast path and the full path (assuming the log's id and cwd values and
their resolutions are non-empty strings). -/
theorem codex_prefix_only_scan (resolve : List Char → List Char)
    (entries : List CodexEntry) (hasUser : Bool)
    (hpre : ∀ ptype role content ts,
      CodexEntry.responseItem ptype role content ts ∈ entries →
      ptype = "message".toList → role = "user".toList →
      isSessionPrefix (trimSpace (extractUserText content)) = true)
    (hids : ∀ cwd i ts, CodexEntry.sessionMeta cwd (some i) ts ∈ entries → i ≠ [])
    (hcwds : ∀ c sid ts, CodexEntry.sessionMeta (some c) sid ts ∈ entries → resolve c ≠ [])
    (hcwdt : ∀ c, CodexEntry.turnContext (some c) ∈ entries → resolve c ≠ []) :
    (scanRolloutFile resolve hasUser entries).userMessageCount = 0 ∧
      (scanRolloutFile resolve hasUser entries).firstUserMessage = [] ∧
      (scanRolloutFile resolve hasUser entries).id = (firstMetaId entries).getD [] ∧
      (scanRolloutFile resolve hasUser entries).cwd =
        ((firstCwd entries).map resolve).getD [] := by
  cases hasUser with
  | true =>
    show (fullScan resolve entries initSInfo).userMessageCount = 0 ∧
      (fullScan resolve entries initSInfo).firstUserMessage = [] ∧
      (fullScan resolve entries initSInfo).id = (firstMetaId entries).getD [] ∧
      (fullScan resolve entries initSInfo).cwd = ((firstCwd entries).map resolve).getD []
    have hcf := fullScan_count_first resolve entries initSInfo
      (fun p r c t hm h1 h2 => Or.inr (hpre p r c t hm h1 h2))
    exact ⟨hcf.1, hcf.2,
      fullScan_id_first resolve entries initSInfo rfl hids,
      fullScan_cwd_first resolve entries initSInfo rfl hcwds hcwdt⟩
  | false =>
    show ({ quickScan resolve entries initSInfo with userMessageCount := 0 }.userMessageCount = 0) ∧ _
    refine ⟨rfl, ?_, ?_, ?_⟩
    · show (quickScan resolve entries initSInfo).firstUserMessage = []
      exact (quickScan_user_fields resolve entries initSInfo).2
    · show (quickScan resolve entries initSInfo).id = (firstMetaId entries).getD []
      exact quickScan_id_first resolve entries initSInfo rfl hids
    · show (quickScan resolve entries initSInfo).cwd = ((firstCwd entries).map resolve).getD []
      exact quickScan_cwd_first resolve entries initSInfo rfl hcwds hcwdt

/-- A concrete Codex rollout whose only user messages are a
`<user_instructions>` block and an `<ENVIRONMENT_CONTEXT>` block (the second
padded with whitespace and upper-cased to exercise trimming and case
folding). -/
def codexEntriesEx : List CodexEntry :=
  [.sessionMeta (some "/w".toList) (some "abc".toList) (some "t1".toList),
    .turnContext (some "/x".toList),
    .responseItem "message".toList "user".toList
      [⟨"input_text".toList, "<user_instructions>Be nice</user_instructions>".toList⟩]
      "t2".toList,
    .responseItem "message".toList "user".toList
      [⟨"input_text".toList, "  <ENVIRONMENT_CONTEXT>x</environment_context> ".toList⟩]
      []]

theorem codex_prefix_only_scan_witness :
    (scanRolloutFile (fun c => c) true codexEntriesEx).userMessageCount = 0 ∧
      (scanRolloutFile (fun c => c) true codexEntriesEx).firstUserMessage = [] ∧
      (scanRolloutFile (fun c => c) true codexEntriesEx).id = "abc".toList ∧
      (scanRolloutFile (fun c => c) true codexEntriesEx).cwd = "/w".toList := by
  have h := codex_prefix_only_scan (fun c => c) codexEntriesEx true
    (by
      intro ptype role content ts hmem h1 h2
      simp only [codexEntriesEx, List.mem_cons, List.not_mem_nil, or_false] at hmem
      rcases hmem with hm | hm | hm | hm
      · exact CodexEntry.noConfusion hm
      · exact CodexEntry.noConfusion hm
      · injection hm with e1 e2 e3 e4
        subst e3
        decide
      · injection hm with e1 e2 e3 e4
        subst e3
        decide)
    (by
      intro cwd i ts hmem
      simp only [codexEntriesEx, List.mem_cons, List.not_mem_nil, or_false] at hmem
      rcases hmem with hm | hm | hm | hm
      · injection hm with e1 e2 e3
        injection e2 with e2
        subst e2
        decide
      · exact CodexEntry.noConfusion hm
      · exact CodexEntry.noConfusion hm
      · exact CodexEntry.noConfusion hm)
    (by
      intro c sid ts hmem
      simp only [codexEntriesEx, List.mem_cons, List.not_mem_nil, or_false] at hmem
      rcases hmem with hm | hm | hm | hm
      · injection hm with e1 e2 e3
        injection e1 with e1
        subst e1
        decide
      · exact CodexEntry.noConfusion hm
      · exact CodexEntry.noConfusion hm
      · exact CodexEntry.noConfusion hm)
    (by
      intro c hmem
      simp only [codexEntriesEx, List.mem_cons, List.not_mem_nil, or_false] at hmem
      rcases hmem with hm | hm | hm | hm
      · exact CodexEntry.noConfusion hm
      · injection hm with e1
        injection e1 with e1
        subst e1
        decide
      · exact CodexEntry.noConfusion hm
      · exact CodexEntry.noConfusion hm)
  refine ⟨h.1, h.2.1, ?_, ?_⟩
  · rw [h.2.2.1]
    decide
  · rw [h.2.2.2]
    decide

/-! ## The Gemini adapter's role normalization

`normalizeGeminiRole` is not among the provided sources — only its test
(`TestNormalizeGeminiRole`) and the spec describe it — so it is modelled from
the spec here. -/

/-- A Gemini message as read from a session document: a `role` and/or a
`type` field (empty for absent) and flattened text content. -/
structure GeminiMsg where
  role : List Char
  mtype : List Char
  content : List Char
  deriving DecidableEq

/-- The `role`-or-`type` field of a Gemini message: `role` when present,
otherwise `type`. -/
def roleOrType (m : GeminiMsg) : List Char :=
  if m.role ≠ [] then m.role else m.mtype

/-- Modelled from the spec: `normalizeGeminiRole` (missing from the sources;
only its test references it) matches the message's `role` or `type`
case-insensitively and maps `USER` to `user`, and `ASSISTANT`, `MODEL` or
`GEMINI` to `assistant`; any other value is lowercased. -/
def normalizeGeminiRole (m : GeminiMsg) : List Char :=
  let raw := roleOrType m
  let upper := raw.map goToUpperChar
  if upper = "USER".toList then "user".toList
  else if upper = "ASSISTANT".toList ∨ upper = "MODEL".toList ∨
      upper = "GEMINI".toList then "assistant".toList
  else raw.map goToLowerChar

/-- A normalized message as returned by `GetSession`. -/
structure NormMsg where
  role : List Char
  content : List Char
  deriving DecidableEq

/-- Modelled from the spec: the Gemini `readAllMessages` (the version backing
`GetSession` in the current sources) returns one message per entry of the
document's `messages` array, with the normalized role. -/
def geminiReadAllMessages (msgs : List GeminiMsg) : List NormMsg :=
  msgs.map fun m => ⟨normalizeGeminiRole m, m.content⟩

/-- C9: every message returned by the Gemini adapter's `GetSession` carries
the normalized role, obtained by matching the source message's `role` or
`type` case-insensitively: `USER` maps to `user`; `ASSISTANT`, `MODEL` and
`GEMINI` map to `assistant`; any other value is lowercased. -/
theorem gemini_role_normalization (msgs : List GeminiMsg) (m : GeminiMsg) :
    ((geminiReadAllMessages msgs).map (fun x => x.role) =
        msgs.map normalizeGeminiRole) ∧
      ((roleOrType m).map goToUpperChar = "USER".toList →
        normalizeGeminiRole m = "user".toList) ∧
      ((roleOrType m).map goToUpperChar = "ASSISTANT".toList ∨
        (roleOrType m).map goToUpperChar = "MODEL".toList ∨
        (roleOrType m).map goToUpperChar = "GEMINI".toList →
        normalizeGeminiRole m = "assistant".toList) ∧
      ((roleOrType m).map goToUpperChar ≠ "USER".toList →
        ¬((roleOrType m).map goToUpperChar = "ASSISTANT".toList ∨
          (roleOrType m).map goToUpperChar = "MODEL".toList ∨
          (roleOrType m).map goToUpperChar = "GEMINI".toList) →
        normalizeGeminiRole m = (roleOrType m).map goToLowerChar) := by
  refine ⟨by simp [geminiReadAllMessages], ?_, ?_, ?_⟩
  · intro h
    simp only [normalizeGeminiRole]
    rw [if_pos h]
  · intro h
    simp only [normalizeGeminiRole]
    have hne : (roleOrType m).map goToUpperChar ≠ "USER".toList := by
      rcases h with h | h | h <;> rw [h] <;> decide
    rw [if_neg hne, if_pos h]
  · intro h1 h2
    simp only [normalizeGeminiRole]
    rw [if_neg h1, if_neg h2]

theorem gemini_role_normalization_witness :
    normalizeGeminiRole ⟨"USER".toList, [], []⟩ = "user".toList ∧
      normalizeGeminiRole ⟨"Assistant".toList, [], []⟩ = "assistant".toList ∧
      normalizeGeminiRole ⟨[], "MODEL".toList, []⟩ = "assistant".toList ∧
      normalizeGeminiRole ⟨[], "GEMINI".toList, []⟩ = "assistant".toList ∧
      normalizeGeminiRole ⟨[], "system".toList, []⟩ = "system".toList ∧
      normalizeGeminiRole ⟨[], "TOOL".toList, []⟩ = "tool".toList := by
  refine ⟨(gemini_role_normalization [] _).2.1 (by decide),
    (gemini_role_normalization [] _).2.2.1 (by decide),
    (gemini_role_normalization [] _).2.2.1 (by decide),
    (gemini_role_normalization [] _).2.2.1 (by decide), ?_, ?_⟩
  · rw [(gemini_role_normalization [] _).2.2.2 (by decide) (by decide)]
    decide
  · rw [(gemini_role_normalization [] _).2.2.2 (by decide) (by decide)]
    decide

/-! ## `adapters/claude.go`: project paths in the all-projects listing -/

/-- `filepath.IsAbs` on Unix: the path starts with `/`. -/
def isAbsPath (p : List Char) : Bool :=
  decide (p.head? = some '/')

/-- The reverse mapping of `listAllSessions` in `adapters/claude.go`:
`strings.ReplaceAll(dirName, "-", "/")` followed by
`strings.TrimPrefix(_, "/")`. -/
def claudeDirNameToPath (d : List Char) : List Char :=
  let p := d.map fun c => if c = '-' then '/' else c
  match p with
  | '/' :: rest => rest
  | _ => p

/-- One session of the claude all-projects listing, with the fields C10
depends on (`parseSessionMetadata` copies its `projectPath` argument into the
session unchanged; the summary/first-message extraction does not touch
it). -/
structure CSession where
  id : List Char
  projectPath : List Char
  filePath : List Char
  timestamp : ℤ
  deriving DecidableEq

/-- `parseSessionMetadata`'s effect on the C10-relevant fields: the id is the
file's basename, the project path is the argument, the timestamp falls back
to the file's mtime. -/
def claudeParseMeta (projectPath : List Char) (file : List Char × ℤ) : CSession :=
  ⟨file.1, projectPath, file.1, file.2⟩

/-- `listAllSessions` from `adapters/claude.go`: every project directory's
name is reverse-mapped with `claudeDirNameToPath` and becomes the
`project_path` of each contained session; the merged list is sorted newest
first (the unstable `sort.Slice` is modelled by the descending swap sort on
the timestamp) and truncated to `limit` when positive.  `dirs` pairs each
directory name with its `.jsonl` files as `(basename, mtime)`. -/
def claudeListAllSessions (dirs : List (List Char × List (List Char × ℤ)))
    (limit : ℕ) : List CSession :=
  let all := dirs.flatMap fun dir =>
    dir.2.map (claudeParseMeta (claudeDirNameToPath dir.1))
  let sorted := exchangeSort (fun s : CSession => (s.timestamp : ℚ)) all
  if 0 < limit ∧ limit < sorted.length then sorted.take limit else sorted

/-- The project path the Gemini all-projects listing exposes when the
original path cannot be inferred from the hash directory name
(`"unknown-project-" + dir.Name()` in the Gemini `listAllSessions`). -/
def geminiFallbackProjectPath (h : List Char) : List Char :=
  "unknown-project-".toList ++ h

/-- C10 counterexample: the claude all-projects listing of the directory
`-Users-x-proj` yields a session whose `project_path` is `Users/x/proj` —
non-empty and not absolute (the leading slash is stripped), refuting the
claim that every listed session's `project_path` is empty or absolute. -/
theorem claude_all_projects_path_counterexample :
    ((claudeListAllSessions [("-Users-x-proj".toList, [(['s'], 3)])] 0).map
        fun s => s.projectPath) = ["Users/x/proj".toList] ∧
      "Users/x/proj".toList ≠ [] ∧
      isAbsPath "Users/x/proj".toList = false := by
  decide

/-- C10 amended: in the claude all-projects listing every session's
`project_path` is the reverse-mapped directory name (`-` replaced by `/`,
leading `/` stripped), which for on-disk directory names (a leading `-`
followed by a path character) is never absolute; the Gemini all-projects
fallback `unknown-project-<hash>` is likewise non-empty and not absolute.
Outside these best-effort identifiers the `project_path` of a listed session
may be empty or an absolute path as the original claim states. -/
theorem claude_all_projects_path_amended
    (dirs : List (List Char × List (List Char × ℤ))) (limit : ℕ)
    (c : Char) (rest : List Char) (hash : List Char)
    (hc1 : c ≠ '-') (hc2 : c ≠ '/') :
    (∀ s ∈ claudeListAllSessions dirs limit, ∃ d ∈ dirs,
      s.projectPath = claudeDirNameToPath d.1) ∧
      claudeDirNameToPath ('-' :: c :: rest) =
        c :: rest.map (fun x => if x = '-' then '/' else x) ∧
      isAbsPath (claudeDirNameToPath ('-' :: c :: rest)) = false ∧
      geminiFallbackProjectPath hash ≠ [] ∧
      isAbsPath (geminiFallbackProjectPath hash) = false := by
  have heq : claudeDirNameToPath ('-' :: c :: rest) =
      c :: rest.map (fun x => if x = '-' then '/' else x) := by
    simp only [claudeDirNameToPath, List.map_cons, if_neg hc1]
    rfl
  refine ⟨?_, heq, ?_, ?_, ?_⟩
  · intro s hs
    have hmem : s ∈ exchangeSort (fun t : CSession => (t.timestamp : ℚ))
        (dirs.flatMap fun dir =>
          dir.2.map (claudeParseMeta (claudeDirNameToPath dir.1))) := by
      rw [claudeListAllSessions] at hs
      split at hs
      · exact (List.take_sublist _ _).mem hs
      · exact hs
    rw [(exchangeSort_perm _ _).mem_iff, List.mem_flatMap] at hmem
    obtain ⟨dir, hdir, hmap⟩ := hmem
    rw [List.mem_map] at hmap
    obtain ⟨file, -, rfl⟩ := hmap
    exact ⟨dir, hdir, rfl⟩
  · rw [heq]
    simp [isAbsPath, hc2]
  · simp [geminiFallbackProjectPath]
  · simp [geminiFallbackProjectPath, isAbsPath]

theorem claude_all_projects_path_amended_witness :
    claudeDirNameToPath "-Users-x-proj".toList = "Users/x/proj".toList ∧
      isAbsPath (claudeDirNameToPath "-Users-x-proj".toList) = false ∧
      geminiFallbackProjectPath "ab12".toList ≠ [] ∧
      isAbsPath (geminiFallbackProjectPath "ab12".toList) = false := by
  have h := claude_all_projects_path_amended [] 0 'U' "sers-x-proj".toList
    "ab12".toList (by decide) (by decide)
  refine ⟨?_, ?_, h.2.2.2.1, h.2.2.2.2⟩
  · rw [show ("-Users-x-proj".toList : List Char) =
      '-' :: 'U' :: "sers-x-proj".toList from rfl, h.2.1]
    decide
  · rw [show ("-Users-x-proj".toList : List Char) =
      '-' :: 'U' :: "sers-x-proj".toList from rfl, h.2.2.1]

end AiSessions
